import Mathlib

/-!
Shallow embedding of the AudioBook timing pipeline
(`audiobook_generator/tts_providers/kokoro_tts_provider.py`,
`audiobook_generator/core/alignment.py`,
`audiobook_generator/core/audiobook_generator.py`).

Time values (Python floats holding seconds) are modelled as exact rationals;
millisecond conversions keep the source's `int(round(x * 1000))` and
`int(x * 1000)` operators as `pyRound` / `pyTrunc` below.
-/

namespace AudioBook

/-- Python `round` on a rational: round half to even, as `int(round(x))` does. -/
def pyRound (q : ℚ) : ℤ :=
  let f := ⌊q⌋
  let r := q - (f : ℚ)
  if r < 1/2 then f
  else if 1/2 < r then f + 1
  else if f % 2 = 0 then f else f + 1

/-- Python `int()` on a rational: truncation toward zero. -/
def pyTrunc (q : ℚ) : ℤ :=
  if 0 ≤ q then ⌊q⌋ else ⌈q⌉

/-- ASCII model of the regex class `\w` (alphanumeric or underscore). -/
def isWordChar (c : Char) : Bool := c.isAlphanum || c = '_'

/-- Python `str.strip()`: drop leading and trailing whitespace. -/
def pyStrip (s : String) : String :=
  ⟨((s.data.dropWhile Char.isWhitespace).reverse.dropWhile Char.isWhitespace).reverse⟩

/-- `PAUSE_TOKENS = {".", "!", "?", ";", ":"}` from `kokoro_tts_provider.py`. -/
def PAUSE_TOKENS : List String := [".", "!", "?", ";", ":"]

/-- `MIN_TOKEN_WEIGHT = 3` from `kokoro_tts_provider.py`. -/
def MIN_TOKEN_WEIGHT : ℕ := 3

/-- `KokoroTTSProvider._determine_token_weight` (kokoro_tts_provider.py lines 251-259):
strip the token; empty strings get the floor weight; members of the pause set get
`max(3, len+8)`; strings matching `[^\w]+` get `max(3, len+4)`; anything else
`max(3, len)`. -/
def determine_token_weight (token : String) : ℕ :=
  let stripped := AudioBook.pyStrip token
  if stripped = "" then MIN_TOKEN_WEIGHT
  else if stripped ∈ PAUSE_TOKENS then max MIN_TOKEN_WEIGHT (stripped.length + 8)
  else if stripped.data.all (fun c => !(isWordChar c)) then
    max MIN_TOKEN_WEIGHT (stripped.length + 4)
  else max MIN_TOKEN_WEIGHT stripped.length

/-- Statement of claim C8's weight policy taken literally: the second branch
tests "consists only of non-alphanumeric characters" (underscore counts as
non-alphanumeric there, while the code's `[^\w]+` treats it as a word char). -/
def claimWeightPolicy (token : String) : ℕ :=
  let stripped := AudioBook.pyStrip token
  if stripped ∈ PAUSE_TOKENS then max 3 (stripped.length + 8)
  else if stripped ≠ "" ∧ stripped.data.all (fun c => !c.isAlphanum) then
    max 3 (stripped.length + 4)
  else max 3 stripped.length

/-- Amended weight policy: as claim C8 but with the non-word test (`[^\w]+`,
underscore excluded) instead of non-alphanumeric. -/
def amendedWeightPolicy (token : String) : ℕ :=
  let stripped := AudioBook.pyStrip token
  if stripped ∈ PAUSE_TOKENS then max 3 (stripped.length + 8)
  else if stripped ≠ "" ∧ stripped.data.all (fun c => !(isWordChar c)) then
    max 3 (stripped.length + 4)
  else max 3 stripped.length

end AudioBook

/-- C8 counterexample: the token `"_"` strips to itself, is not in the pause
set, and consists only of non-alphanumeric characters, so the claim's policy
gives it weight `max(3, 1+4) = 5`; the code's `_determine_token_weight`
gives `3` because `_` matches `\w`. -/
theorem C8_counterexample :
    AudioBook.determine_token_weight "_" = 3 ∧
    AudioBook.claimWeightPolicy "_" = 5 ∧
    AudioBook.determine_token_weight "_" ≠ AudioBook.claimWeightPolicy "_" := by
  refine ⟨by decide, by decide, by decide⟩

/-- C8 amended: after stripping, a pause-set token gets weight `max(3, len+8)`;
any other nonempty token consisting only of non-word characters (neither
alphanumeric nor underscore) gets `max(3, len+4)`; all other tokens get
`max(3, len)`; consequently every token's weight is at least 3. -/
theorem C8_weight_policy (token : String) :
    AudioBook.determine_token_weight token = AudioBook.amendedWeightPolicy token ∧
    3 ≤ AudioBook.determine_token_weight token := by
  constructor
  · unfold AudioBook.determine_token_weight AudioBook.amendedWeightPolicy
      AudioBook.MIN_TOKEN_WEIGHT
    by_cases h0 : AudioBook.pyStrip token = ""
    · simp [h0, AudioBook.PAUSE_TOKENS]
    · simp only [h0, if_false]
      by_cases h1 : AudioBook.pyStrip token ∈ AudioBook.PAUSE_TOKENS
      · simp [h1]
      · simp [h1, h0]
  · unfold AudioBook.determine_token_weight AudioBook.MIN_TOKEN_WEIGHT
    by_cases h0 : AudioBook.pyStrip token = ""
    · simp [h0]
    · simp only [h0, if_false]
      by_cases h1 : AudioBook.pyStrip token ∈ AudioBook.PAUSE_TOKENS
      · simp [h1]
      · by_cases h2 : (AudioBook.pyStrip token).data.all (fun c => !(AudioBook.isWordChar c))
        · simp [h1, h2]
        · simp [h1, h2]

namespace AudioBook

/-- Result record of `KokoroTTSProvider._analyze_audio` (all values in seconds). -/
structure AudioStats where
  duration : ℚ
  leading_silence : ℚ
  trailing_silence : ℚ
deriving DecidableEq, Repr

/-- Frame indices whose amplitude is at or above the threshold:
`np.nonzero(amplitudes >= adaptive_threshold)[0]`. -/
def non_silent_indices (amplitudes : List ℚ) (threshold : ℚ) : List ℕ :=
  (List.range amplitudes.length).filter (fun i => decide (threshold ≤ amplitudes.getD i 0))

/-- `audio_file.samplerate or 1`: the sample rate, falling back to 1 when the
header reports 0. -/
def rateQ (samplerate : ℕ) : ℚ := if samplerate = 0 then 1 else (samplerate : ℚ)

/-- `amplitudes = np.abs(data)` for mono (`ndim == 1`) audio. -/
def amplitudes_of (data : List ℚ) : List ℚ := data.map (fun x => |x|)

/-- `max_amplitude = float(np.max(amplitudes))`: `np.max` over the nonempty
nonnegative amplitude list is the fold of `max` from 0. -/
def peak_of (data : List ℚ) : ℚ := (amplitudes_of data).foldr max 0

/-- `adaptive_threshold = max(1e-4, max_amplitude * 0.005)`. -/
def threshold_of (data : List ℚ) : ℚ := max (1/10000) (peak_of data * (5/1000))

/-- `KokoroTTSProvider._analyze_audio` (kokoro_tts_provider.py lines 106-144), in the
mono (`ndim == 1`) layout: frames come from the decoded sample list. -/
def analyze_audio (data : List ℚ) (samplerate : ℕ) : AudioStats :=
  let sample_rate : ℚ := rateQ samplerate
  if data.length = 0 then ⟨0, 0, 0⟩
  else
    let duration : ℚ := (data.length : ℚ) / sample_rate
    if peak_of data ≤ 1/1000000 then ⟨duration, 0, 0⟩
    else
      let non_silent := non_silent_indices (amplitudes_of data) (threshold_of data)
      if non_silent = [] then ⟨duration, 0, duration⟩
      else
        let first_non_silent := non_silent.headD 0
        let last_non_silent := non_silent.getLastD 0
        ⟨duration,
         max 0 ((first_non_silent : ℚ) / sample_rate),
         max 0 (((data.length : ℚ) - (last_non_silent : ℚ) - 1) / sample_rate)⟩

theorem rateQ_pos (samplerate : ℕ) : 0 < rateQ samplerate := by
  unfold rateQ
  by_cases h : samplerate = 0
  · simp [h]
  · simp only [h, if_false]
    exact_mod_cast Nat.pos_of_ne_zero h

theorem amplitudes_of_length (data : List ℚ) :
    (amplitudes_of data).length = data.length := List.length_map _ _

theorem non_silent_indices_pairwise (amps : List ℚ) (thr : ℚ) :
    (non_silent_indices amps thr).Pairwise (· < ·) :=
  (List.pairwise_lt_range _).filter _

theorem mem_non_silent_indices {amps : List ℚ} {thr : ℚ} {i : ℕ} :
    i ∈ non_silent_indices amps thr ↔ i < amps.length ∧ thr ≤ amps.getD i 0 := by
  simp [non_silent_indices, List.mem_filter, List.mem_range]

theorem headD_le_of_pairwise_lt {l : List ℕ} (h : l.Pairwise (· < ·))
    {x : ℕ} (hx : x ∈ l) : l.headD 0 ≤ x := by
  cases l with
  | nil => cases hx
  | cons a t =>
      rcases List.mem_cons.mp hx with rfl | hxt
      · exact le_refl _
      · exact le_of_lt ((List.pairwise_cons.mp h).1 x hxt)

theorem le_getLastD_of_pairwise_lt {l : List ℕ} :
    l.Pairwise (· < ·) → ∀ x ∈ l, x ≤ l.getLastD 0 := by
  induction l with
  | nil => intro _ x hx; cases hx
  | cons a t ih =>
      intro h x hx
      rw [List.getLastD_cons]
      rcases List.mem_cons.mp hx with hxa | hxt
      · subst hxa
        rcases List.mem_cons.mp (List.getLastD_mem_cons t x) with he | ht2
        · exact le_of_eq he.symm
        · exact le_of_lt ((List.pairwise_cons.mp h).1 _ ht2)
      · have ht := (List.pairwise_cons.mp h).2
        have hx' := ih ht x hxt
        cases t with
        | nil => cases hxt
        | cons b u =>
            rw [List.getLastD_cons]
            rw [List.getLastD_cons] at hx'
            exact hx'

theorem headD_mem {l : List ℕ} (h : l ≠ []) : l.headD 0 ∈ l := by
  cases l with
  | nil => exact absurd rfl h
  | cons a t => exact List.mem_cons_self _ _

theorem getLastD_mem {l : List ℕ} (h : l ≠ []) : l.getLastD 0 ∈ l := by
  cases l with
  | nil => exact absurd rfl h
  | cons a t =>
      rw [List.getLastD_cons]
      exact List.getLastD_mem_cons t a

end AudioBook

/-- C4 counterexample: a fully silent chunk (four zero samples at rate 1) has
duration 4 but `_analyze_audio` reports `trailing_silence = 0`, not the
duration: the all-zero input takes the `max_amplitude <= 1e-6` early return,
which zeroes both silence fields. -/
theorem C4_counterexample :
    AudioBook.analyze_audio [0, 0, 0, 0] 1 = ⟨4, 0, 0⟩ ∧
    (AudioBook.analyze_audio [0, 0, 0, 0] 1).trailing_silence ≠
      (AudioBook.analyze_audio [0, 0, 0, 0] 1).duration := by
  have h : AudioBook.analyze_audio [0, 0, 0, 0] 1 = ⟨4, 0, 0⟩ := by
    norm_num [AudioBook.analyze_audio, AudioBook.peak_of, AudioBook.amplitudes_of,
      AudioBook.rateQ]
  refine ⟨h, ?_⟩
  rw [h]
  norm_num

/-- C4 amended: silence analysis uses the adaptive threshold
`max(1e-4, 0.005 * peak)`; when some sample reaches the threshold,
`leading_silence` and `trailing_silence` are bounded by the first and last
sample index at or above it; a chunk whose peak is at most `1e-6` reports
`leading_silence = 0` and `trailing_silence = 0`; a chunk with larger peak but
no sample at/above the threshold reports `leading_silence = 0` and
`trailing_silence = duration`. -/
theorem C4_analyze_audio :
    (∀ (data : List ℚ) (rate : ℕ),
      AudioBook.peak_of data ≤ 1/1000000 →
      AudioBook.analyze_audio data rate =
        ⟨(data.length : ℚ) / AudioBook.rateQ rate, 0, 0⟩)
  ∧ (∀ (data : List ℚ) (rate : ℕ),
      ¬ AudioBook.peak_of data ≤ 1/1000000 →
      AudioBook.non_silent_indices (AudioBook.amplitudes_of data)
          (AudioBook.threshold_of data) = [] →
      AudioBook.analyze_audio data rate =
        ⟨(data.length : ℚ) / AudioBook.rateQ rate, 0,
         (data.length : ℚ) / AudioBook.rateQ rate⟩)
  ∧ (∀ (data : List ℚ) (rate : ℕ) (i0 iL : ℕ),
      ¬ AudioBook.peak_of data ≤ 1/1000000 →
      AudioBook.non_silent_indices (AudioBook.amplitudes_of data)
          (AudioBook.threshold_of data) ≠ [] →
      (AudioBook.non_silent_indices (AudioBook.amplitudes_of data)
          (AudioBook.threshold_of data)).headD 0 = i0 →
      (AudioBook.non_silent_indices (AudioBook.amplitudes_of data)
          (AudioBook.threshold_of data)).getLastD 0 = iL →
      AudioBook.threshold_of data ≤ (AudioBook.amplitudes_of data).getD i0 0 ∧
      (∀ i, i < i0 → (AudioBook.amplitudes_of data).getD i 0 < AudioBook.threshold_of data) ∧
      AudioBook.threshold_of data ≤ (AudioBook.amplitudes_of data).getD iL 0 ∧
      (∀ i, iL < i → i < data.length →
        (AudioBook.amplitudes_of data).getD i 0 < AudioBook.threshold_of data) ∧
      i0 ≤ iL ∧ iL < data.length ∧
      AudioBook.analyze_audio data rate =
        ⟨(data.length : ℚ) / AudioBook.rateQ rate,
         max 0 ((i0 : ℚ) / AudioBook.rateQ rate),
         max 0 (((data.length : ℚ) - (iL : ℚ) - 1) / AudioBook.rateQ rate)⟩) := by
  have hlen : ∀ (data : List ℚ), ¬ AudioBook.peak_of data ≤ 1/1000000 → data.length ≠ 0 := by
    intro data h hzero
    apply h
    have : data = [] := List.length_eq_zero.mp hzero
    subst this
    norm_num [AudioBook.peak_of, AudioBook.amplitudes_of]
  refine ⟨?_, ?_, ?_⟩
  · intro data rate hq
    unfold AudioBook.analyze_audio
    by_cases h0 : data.length = 0
    · simp only [h0, if_pos rfl]
      norm_num
    · simp only [if_neg h0, if_pos hq]
  · intro data rate hq hns
    unfold AudioBook.analyze_audio
    simp only [if_neg (hlen data hq), if_neg hq, if_pos hns]

  · intro data rate i0 iL hq hns h0 hL
    have hpw := AudioBook.non_silent_indices_pairwise (AudioBook.amplitudes_of data)
      (AudioBook.threshold_of data)
    have hi0mem : i0 ∈ AudioBook.non_silent_indices (AudioBook.amplitudes_of data)
        (AudioBook.threshold_of data) := h0 ▸ AudioBook.headD_mem hns
    have hiLmem : iL ∈ AudioBook.non_silent_indices (AudioBook.amplitudes_of data)
        (AudioBook.threshold_of data) := hL ▸ AudioBook.getLastD_mem hns
    have hi0 := AudioBook.mem_non_silent_indices.mp hi0mem
    have hiL := AudioBook.mem_non_silent_indices.mp hiLmem
    have hi0L : i0 ≤ iL := by
      have := AudioBook.le_getLastD_of_pairwise_lt hpw _ hi0mem
      omega
    have hiLlen : iL < data.length := by
      have := hiL.1
      rwa [AudioBook.amplitudes_of_length] at this
    refine ⟨hi0.2, ?_, hiL.2, ?_, hi0L, hiLlen, ?_⟩
    · intro i hi
      by_contra hcon
      push_neg at hcon
      have hilen : i < (AudioBook.amplitudes_of data).length := by
        have := hi0.1
        omega
      have himem : i ∈ AudioBook.non_silent_indices (AudioBook.amplitudes_of data)
          (AudioBook.threshold_of data) :=
        AudioBook.mem_non_silent_indices.mpr ⟨hilen, hcon⟩
      have := AudioBook.headD_le_of_pairwise_lt hpw himem
      omega
    · intro i hi hilen'
      by_contra hcon
      push_neg at hcon
      have hilen : i < (AudioBook.amplitudes_of data).length := by
        rwa [AudioBook.amplitudes_of_length]
      have himem : i ∈ AudioBook.non_silent_indices (AudioBook.amplitudes_of data)
          (AudioBook.threshold_of data) :=
        AudioBook.mem_non_silent_indices.mpr ⟨hilen, hcon⟩
      have := AudioBook.le_getLastD_of_pairwise_lt hpw _ himem
      omega
    · unfold AudioBook.analyze_audio
      simp only [if_neg (hlen data hq), if_neg hq, if_neg hns, h0, hL]

/-- C10: for every audio input, the silence analysis reports nonnegative
leading and trailing silence whose sum never exceeds the chunk duration,
in every branch of `_analyze_audio` including empty and fully silent audio. -/
theorem C10_silence_within_duration (data : List ℚ) (rate : ℕ) :
    0 ≤ (AudioBook.analyze_audio data rate).leading_silence ∧
    0 ≤ (AudioBook.analyze_audio data rate).trailing_silence ∧
    (AudioBook.analyze_audio data rate).leading_silence +
        (AudioBook.analyze_audio data rate).trailing_silence ≤
      (AudioBook.analyze_audio data rate).duration := by
  have hr : 0 < AudioBook.rateQ rate := AudioBook.rateQ_pos rate
  have hdur : 0 ≤ (data.length : ℚ) / AudioBook.rateQ rate :=
    div_nonneg (by exact_mod_cast Nat.zero_le _) (le_of_lt hr)
  unfold AudioBook.analyze_audio
  by_cases h0 : data.length = 0
  · simp [h0]
  · simp only [if_neg h0]
    by_cases hq : AudioBook.peak_of data ≤ 1/1000000
    · simp only [if_pos hq]
      exact ⟨le_refl _, le_refl _, by simp only [add_zero]; exact hdur⟩
    · simp only [if_neg hq]
      by_cases hns : AudioBook.non_silent_indices (AudioBook.amplitudes_of data)
          (AudioBook.threshold_of data) = []
      · simp only [if_pos hns]
        exact ⟨le_refl _, hdur, by simp only [zero_add]; exact le_refl _⟩
      · simp only [if_neg hns]
        set ns := AudioBook.non_silent_indices (AudioBook.amplitudes_of data)
          (AudioBook.threshold_of data) with hnsdef
        have hpw := AudioBook.non_silent_indices_pairwise (AudioBook.amplitudes_of data)
          (AudioBook.threshold_of data)
        have hi0mem : ns.headD 0 ∈ ns := AudioBook.headD_mem hns
        have hiLmem : ns.getLastD 0 ∈ ns := AudioBook.getLastD_mem hns
        have hi0L : ns.headD 0 ≤ ns.getLastD 0 :=
          AudioBook.headD_le_of_pairwise_lt hpw hiLmem
        have hiLlen : ns.getLastD 0 < data.length := by
          have := (AudioBook.mem_non_silent_indices.mp hiLmem).1
          rwa [AudioBook.amplitudes_of_length] at this
        refine ⟨le_max_left _ _, le_max_left _ _, ?_⟩
        have hlead : 0 ≤ ((ns.headD 0 : ℕ) : ℚ) / AudioBook.rateQ rate :=
          div_nonneg (by exact_mod_cast Nat.zero_le _) (le_of_lt hr)
        have htrail : 0 ≤ ((data.length : ℚ) - ((ns.getLastD 0 : ℕ) : ℚ) - 1) /
            AudioBook.rateQ rate := by
          apply div_nonneg _ (le_of_lt hr)
          have : ((ns.getLastD 0 : ℕ) : ℚ) + 1 ≤ (data.length : ℚ) := by
            exact_mod_cast hiLlen
          linarith
        rw [max_eq_right hlead, max_eq_right htrail, div_add_div_same]
        have hcast : ((ns.headD 0 : ℕ) : ℚ) ≤ ((ns.getLastD 0 : ℕ) : ℚ) := by
          exact_mod_cast hi0L
        exact (div_le_div_iff_of_pos_right hr).mpr (by linarith)

/-- C4 witness: concrete audio for each branch of `C4_analyze_audio`. A peak of
`1/100000` lies between `1e-6` and the threshold floor `1e-4`, so no sample
qualifies and trailing silence spans the whole duration; `[0, 1, 0]` at rate 1
has its only qualifying sample at index 1, giving one second of leading and of
trailing silence. -/
theorem C4_analyze_audio_witness :
    AudioBook.analyze_audio [0, (1:ℚ)/100000, 0] 1 = ⟨3, 0, 3⟩ ∧
    (AudioBook.analyze_audio [0, 1, 0] 1).leading_silence = 1 ∧
    (AudioBook.analyze_audio [0, 1, 0] 1).trailing_silence = 1 := by
  have hpk1 : ¬ AudioBook.peak_of [0, (1:ℚ)/100000, 0] ≤ 1/1000000 := by
    norm_num [AudioBook.peak_of, AudioBook.amplitudes_of, abs_of_nonneg]
  have hns1 : AudioBook.non_silent_indices (AudioBook.amplitudes_of [0, (1:ℚ)/100000, 0])
      (AudioBook.threshold_of [0, (1:ℚ)/100000, 0]) = [] := by
    norm_num [AudioBook.non_silent_indices, AudioBook.amplitudes_of, AudioBook.threshold_of,
      AudioBook.peak_of, List.range_succ, List.filter_cons, List.filter_nil,
      abs_of_nonneg]
  have h1 := C4_analyze_audio.2.1 [0, (1:ℚ)/100000, 0] 1 hpk1 hns1
  have hpk2 : ¬ AudioBook.peak_of [0, (1:ℚ), 0] ≤ 1/1000000 := by
    norm_num [AudioBook.peak_of, AudioBook.amplitudes_of, abs_of_nonneg]
  have hns2 : AudioBook.non_silent_indices (AudioBook.amplitudes_of [0, (1:ℚ), 0])
      (AudioBook.threshold_of [0, (1:ℚ), 0]) = [1] := by
    norm_num [AudioBook.non_silent_indices, AudioBook.amplitudes_of, AudioBook.threshold_of,
      AudioBook.peak_of, List.range_succ, List.filter_cons, List.filter_nil,
      abs_of_nonneg]
  have h2 := C4_analyze_audio.2.2 [0, (1:ℚ), 0] 1 1 1 hpk2
    (by rw [hns2]; exact List.cons_ne_nil _ _) (by rw [hns2]; rfl) (by rw [hns2]; rfl)
  refine ⟨?_, ?_, ?_⟩
  · rw [h1]
    norm_num [AudioBook.rateQ]
  · rw [h2.2.2.2.2.2.2]
    norm_num [AudioBook.rateQ]
  · rw [h2.2.2.2.2.2.2]
    norm_num [AudioBook.rateQ]

namespace AudioBook

/-- Raw match of `TOKEN_PATTERN` over a character list: the matched characters
together with the match's absolute start and end offsets. -/
structure RawTok where
  start : ℕ
  stop : ℕ
  chars : List Char
deriving DecidableEq, Repr

/-- Scanner state while simulating `TOKEN_PATTERN.finditer` with
`TOKEN_PATTERN = [\w]+(?:['\-][\w]+)*|[^\s]`: between matches; inside a word
run `[\w]+`; or just after a `'`/`-` separator that extends the word run only
when a word character follows it. -/
inductive TokMode where
  | outside
  | word (start : ℕ) (acc : List Char)
  | sep (start : ℕ) (acc : List Char) (spos : ℕ) (s : Char)
deriving Repr

/-- Separator characters of the group `(?:['\-][\w]+)*`. -/
def isSepChar (c : Char) : Bool := c = '\'' || c = '-'

/-- Left-to-right maximal-munch scan equivalent to
`TOKEN_PATTERN.finditer(text)`: a maximal run of word characters, extended
over `'`/`-` separators that are followed by another word character, is one
match; any other non-whitespace character is a single-character match;
whitespace separates matches. -/
def tokRun : TokMode → ℕ → List Char → List RawTok
  | .outside, _, [] => []
  | .word start acc, pos, [] => [⟨start, pos, acc⟩]
  | .sep start acc spos s, _, [] => [⟨start, spos, acc⟩, ⟨spos, spos + 1, [s]⟩]
  | .outside, pos, c :: cs =>
      if c.isWhitespace then tokRun .outside (pos + 1) cs
      else if isWordChar c then tokRun (.word pos [c]) (pos + 1) cs
      else ⟨pos, pos + 1, [c]⟩ :: tokRun .outside (pos + 1) cs
  | .word start acc, pos, c :: cs =>
      if isWordChar c then tokRun (.word start (acc ++ [c])) (pos + 1) cs
      else if isSepChar c then tokRun (.sep start acc pos c) (pos + 1) cs
      else if c.isWhitespace then ⟨start, pos, acc⟩ :: tokRun .outside (pos + 1) cs
      else ⟨start, pos, acc⟩ :: ⟨pos, pos + 1, [c]⟩ :: tokRun .outside (pos + 1) cs
  | .sep start acc spos s, pos, c :: cs =>
      if isWordChar c then tokRun (.word start (acc ++ [s, c])) (pos + 1) cs
      else if c.isWhitespace then
        ⟨start, spos, acc⟩ :: ⟨spos, spos + 1, [s]⟩ :: tokRun .outside (pos + 1) cs
      else
        ⟨start, spos, acc⟩ :: ⟨spos, spos + 1, [s]⟩ :: ⟨pos, pos + 1, [c]⟩ ::
          tokRun .outside (pos + 1) cs

/-- Token record produced by `_tokenize`: value, absolute character offsets and
duration weight. (The source also emits a redundant `length` field equal to
`char_end - char_start`.) -/
structure Token where
  value : String
  char_start : ℕ
  char_end : ℕ
  weight : ℕ
deriving DecidableEq, Repr

/-- `KokoroTTSProvider._tokenize` (kokoro_tts_provider.py lines 261-272): one
`Token` per `TOKEN_PATTERN` match, with offsets shifted by `base_offset` and
the weight policy applied to the matched text. -/
def tokenize (text : String) (base_offset : ℕ) : List Token :=
  (tokRun .outside base_offset text.data).map (fun r =>
    { value := ⟨r.chars⟩, char_start := r.start, char_end := r.stop,
      weight := determine_token_weight ⟨r.chars⟩ })

end AudioBook

namespace AudioBook

theorem isWordChar_not_whitespace {c : Char} (h : isWordChar c = true) :
    c.isWhitespace = false := by
  cases hw : c.isWhitespace with
  | false => rfl
  | true =>
      exfalso
      have hc : ((c = ' ' ∨ c = '\t') ∨ c = '\x0d') ∨ c = '\n' := by
        simpa [Char.isWhitespace] using hw
      rcases hc with ((rfl | rfl) | rfl) | rfl <;> exact absurd h (by decide)

theorem isSepChar_not_whitespace {c : Char} (h : isSepChar c = true) :
    c.isWhitespace = false := by
  have hc : c = '\'' ∨ c = '-' := by simpa [isSepChar] using h
  rcases hc with rfl | rfl <;> decide

/-- Characters the scanner still holds that belong to the match in progress. -/
def pendChars : TokMode → List Char
  | .outside => []
  | .word _ acc => acc
  | .sep _ acc _ s => acc ++ [s]

theorem tokRun_chars_join :
    ∀ (cs : List Char) (mode : TokMode) (pos : ℕ),
      ((tokRun mode pos cs).map RawTok.chars).flatten =
        pendChars mode ++ cs.filter (fun c => !c.isWhitespace) := by
  intro cs
  induction cs with
  | nil =>
      intro mode pos
      cases mode <;> simp [tokRun, pendChars]
  | cons c cs ih =>
      intro mode pos
      cases mode with
      | outside =>
          by_cases hw : c.isWhitespace
          · simp [tokRun, hw, ih, pendChars, List.filter_cons]
          · by_cases hword : isWordChar c
            · simp [tokRun, hw, hword, ih, pendChars, List.filter_cons]
            · simp [tokRun, hw, hword, ih, pendChars, List.filter_cons]
      | word start acc =>
          by_cases hword : isWordChar c
          · have hw := isWordChar_not_whitespace hword
            simp [tokRun, hword, hw, ih, pendChars, List.filter_cons]
          · by_cases hsep : isSepChar c
            · have hw := isSepChar_not_whitespace hsep
              simp [tokRun, hword, hsep, hw, ih, pendChars, List.filter_cons]
            · by_cases hw : c.isWhitespace
              · simp [tokRun, hword, hsep, hw, ih, pendChars, List.filter_cons]
              · simp [tokRun, hword, hsep, hw, ih, pendChars, List.filter_cons]
      | sep start acc spos s =>
          by_cases hword : isWordChar c
          · have hw := isWordChar_not_whitespace hword
            simp [tokRun, hword, hw, ih, pendChars, List.filter_cons]
          · by_cases hw : c.isWhitespace
            · simp [tokRun, hword, hw, ih, pendChars, List.filter_cons]
            · simp [tokRun, hword, hw, ih, pendChars, List.filter_cons]

/-- Invariant relating the scanner state at `pos` to the scanned text `T`. -/
def ModeInv (T : List Char) (pos : ℕ) : TokMode → Prop
  | .outside => True
  | .word start acc => start ≤ pos ∧ acc = (T.drop start).take (pos - start)
  | .sep start acc spos s =>
      start ≤ spos ∧ pos = spos + 1 ∧
      acc = (T.drop start).take (spos - start) ∧
      T.drop spos = s :: T.drop (spos + 1)

theorem drop_succ_of_drop_cons {T : List Char} {pos : ℕ} {c : Char} {cs : List Char}
    (h : T.drop pos = c :: cs) : T.drop (pos + 1) = cs := by
  rw [← List.tail_drop, h, List.tail_cons]

theorem getElem?_of_drop_cons {T : List Char} {pos : ℕ} {c : Char} {cs : List Char}
    (h : T.drop pos = c :: cs) : T[pos]? = some c := by
  have h0 : (T.drop pos)[0]? = some c := by rw [h]; simp
  rwa [List.getElem?_drop, Nat.add_zero] at h0

theorem take_snoc_of_getElem? {T : List Char} {start pos : ℕ} {c : Char}
    (hle : start ≤ pos) (hget : T[pos]? = some c) :
    (T.drop start).take (pos + 1 - start) = (T.drop start).take (pos - start) ++ [c] := by
  have h1 : pos + 1 - start = (pos - start) + 1 := by omega
  rw [h1, List.take_succ, List.getElem?_drop]
  have h2 : start + (pos - start) = pos := by omega
  rw [h2, hget]
  rfl

theorem tokRun_chars_eq_slice (T : List Char) :
    ∀ (cs : List Char) (mode : TokMode) (pos : ℕ),
      T.drop pos = cs → ModeInv T pos mode →
      ∀ r ∈ tokRun mode pos cs,
        r.chars = (T.drop r.start).take (r.stop - r.start) := by
  intro cs
  induction cs with
  | nil =>
      intro mode pos hdrop hinv r hr
      cases mode with
      | outside => simp [tokRun] at hr
      | word start acc =>
          simp only [tokRun, List.mem_singleton] at hr
          subst hr
          exact hinv.2
      | sep start acc spos s =>
          rcases hinv with ⟨h1, h2, h3, h4⟩
          simp only [tokRun, List.mem_cons, List.mem_singleton] at hr
          rcases hr with hr | hr | hr
          · subst hr; exact h3
          · subst hr
            show [s] = (T.drop spos).take (spos + 1 - spos)
            rw [show spos + 1 - spos = 1 by omega, h4]
            rfl
          · cases hr
  | cons c cs ih =>
      intro mode pos hdrop hinv r hr
      have hds : T.drop (pos + 1) = cs := drop_succ_of_drop_cons hdrop
      have hgetc : T[pos]? = some c := getElem?_of_drop_cons hdrop
      have hslice1 : [c] = (T.drop pos).take (pos + 1 - pos) := by
        rw [show pos + 1 - pos = 1 by omega, hdrop]
        rfl
      cases mode with
      | outside =>
          by_cases hw : c.isWhitespace
          · rw [tokRun, if_pos hw] at hr
            exact ih .outside (pos + 1) hds trivial r hr
          · by_cases hword : isWordChar c
            · rw [tokRun, if_neg (by simp [hw]), if_pos hword] at hr
              exact ih (.word pos [c]) (pos + 1) hds
                ⟨by omega, by rw [show pos + 1 - pos = 1 by omega, hdrop]; rfl⟩ r hr
            · rw [tokRun, if_neg (by simp [hw]), if_neg (by simp [hword])] at hr
              rcases List.mem_cons.mp hr with hr | hr
              · subst hr; exact hslice1
              · exact ih .outside (pos + 1) hds trivial r hr
      | word start acc =>
          rcases hinv with ⟨hle, hacc⟩
          by_cases hword : isWordChar c
          · rw [tokRun, if_pos hword] at hr
            refine ih (.word start (acc ++ [c])) (pos + 1) hds ⟨by omega, ?_⟩ r hr
            rw [take_snoc_of_getElem? hle hgetc, ← hacc]
          · by_cases hsep : isSepChar c
            · rw [tokRun, if_neg (by simp [hword]), if_pos hsep] at hr
              exact ih (.sep start acc pos c) (pos + 1) hds
                ⟨hle, rfl, hacc, by rw [hdrop, hds]⟩ r hr
            · by_cases hw : c.isWhitespace
              · rw [tokRun, if_neg (by simp [hword]), if_neg (by simp [hsep]),
                  if_pos hw] at hr
                rcases List.mem_cons.mp hr with hr | hr
                · subst hr; exact hacc
                · exact ih .outside (pos + 1) hds trivial r hr
              · rw [tokRun, if_neg (by simp [hword]), if_neg (by simp [hsep]),
                  if_neg (by simp [hw])] at hr
                rcases List.mem_cons.mp hr with hr | hr
                · subst hr; exact hacc
                · rcases List.mem_cons.mp hr with hr | hr
                  · subst hr; exact hslice1
                  · exact ih .outside (pos + 1) hds trivial r hr
      | sep start acc spos s =>
          rcases hinv with ⟨h1, h2, h3, h4⟩
          have hgets : T[spos]? = some s := getElem?_of_drop_cons h4
          have hslices : [s] = (T.drop spos).take (spos + 1 - spos) := by
            rw [show spos + 1 - spos = 1 by omega, h4]
            rfl
          by_cases hword : isWordChar c
          · rw [tokRun, if_pos hword] at hr
            refine ih (.word start (acc ++ [s, c])) (pos + 1) hds ⟨by omega, ?_⟩ r hr
            have hstep1 : (T.drop start).take (pos - start) =
                (T.drop start).take (spos - start) ++ [s] := by
              rw [h2, take_snoc_of_getElem? h1 hgets]
            have hstep2 : (T.drop start).take (pos + 1 - start) =
                (T.drop start).take (pos - start) ++ [c] :=
              take_snoc_of_getElem? (by omega) hgetc
            rw [hstep2, hstep1, ← h3]
            simp
          · by_cases hw : c.isWhitespace
            · rw [tokRun, if_neg (by simp [hword]), if_pos hw] at hr
              rcases List.mem_cons.mp hr with hr | hr
              · subst hr; exact h3
              · rcases List.mem_cons.mp hr with hr | hr
                · subst hr; exact hslices
                · exact ih .outside (pos + 1) hds trivial r hr
            · rw [tokRun, if_neg (by simp [hword]), if_neg (by simp [hw])] at hr
              rcases List.mem_cons.mp hr with hr | hr
              · subst hr; exact h3
              · rcases List.mem_cons.mp hr with hr | hr
                · subst hr; exact hslices
                · rcases List.mem_cons.mp hr with hr | hr
                  · subst hr; exact hslice1
                  · exact ih .outside (pos + 1) hds trivial r hr

end AudioBook

/-- C9: tokenization is deterministic (a pure function of its input: two runs
yield identical token sequences), each token's value is exactly the slice
`T[char_start:char_end]` of the input, and concatenating those slices over the
tokens in order reconstructs exactly the non-whitespace content of `T` in
order (every non-whitespace character belongs to exactly one token span,
whitespace to none). -/
theorem C9_tokenize_reconstruction (T : String) :
    AudioBook.tokenize T 0 = AudioBook.tokenize T 0 ∧
    (∀ t ∈ AudioBook.tokenize T 0,
      t.value.data = (T.data.drop t.char_start).take (t.char_end - t.char_start)) ∧
    ((AudioBook.tokenize T 0).map
        (fun t => (T.data.drop t.char_start).take (t.char_end - t.char_start))).flatten =
      T.data.filter (fun c => !c.isWhitespace) := by
  refine ⟨rfl, ?_, ?_⟩
  · intro t ht
    rcases List.mem_map.mp ht with ⟨r, hr, rfl⟩
    exact AudioBook.tokRun_chars_eq_slice T.data T.data .outside 0 (by simp) trivial r hr
  · have hmap : (AudioBook.tokenize T 0).map
        (fun t => (T.data.drop t.char_start).take (t.char_end - t.char_start)) =
        (AudioBook.tokRun .outside 0 T.data).map AudioBook.RawTok.chars := by
      unfold AudioBook.tokenize
      rw [List.map_map]
      apply List.map_congr_left
      intro r hr
      simp only [Function.comp_apply]
      exact (AudioBook.tokRun_chars_eq_slice T.data T.data .outside 0
        (by simp) trivial r hr).symm
    rw [hmap]
    have hj := AudioBook.tokRun_chars_join T.data .outside 0
    simpa [AudioBook.pendChars] using hj

namespace AudioBook

/-- One synthesized chunk record (`chunk_records` entries built in
`KokoroTTSProvider.text_to_speech`, lines 69-78): chunk text, duration and
silence analysis in seconds, and the chunk's absolute character offset. -/
structure ChunkRec where
  text : String
  duration : ℚ
  leading_silence : ℚ
  trailing_silence : ℚ
  char_offset : ℕ
deriving DecidableEq, Repr

/-- Persisted word timing (`TokenTiming`): integer milliseconds plus the
token's text and character span. -/
structure TokenTiming where
  token : String
  start_ms : ℤ
  end_ms : ℤ
  char_start : ℕ
  char_end : ℕ
deriving DecidableEq, Repr

/-- Inner loop of `_build_word_timings_estimate` (kokoro_tts_provider.py lines
214-231): allocate the chunk's effective duration across its tokens
proportionally to weight; the last token absorbs whatever remains. -/
def allocTokens : List Token → ℚ → ℚ → ℚ → ℕ → List TokenTiming
  | [], _, _, _, _ => []
  | [token], token_start, remaining, _, _ =>
      [{ token := token.value,
         start_ms := pyRound (token_start * 1000),
         end_ms := pyRound ((token_start + remaining) * 1000),
         char_start := token.char_start, char_end := token.char_end }]
  | token :: next :: more, token_start, remaining, effective_duration, total_weight =>
      let token_duration := effective_duration * (token.weight : ℚ) / (total_weight : ℚ)
      let remaining2 := max 0 (remaining - token_duration)
      let token_end := token_start + token_duration
      { token := token.value,
        start_ms := pyRound (token_start * 1000),
        end_ms := pyRound (token_end * 1000),
        char_start := token.char_start, char_end := token.char_end }
        :: allocTokens (next :: more) token_end remaining2 effective_duration total_weight

/-- `KokoroTTSProvider._build_word_timings_estimate` (lines 184-249): walk the
chunks in order, consuming the ordered token list through one running index; a
chunk takes every remaining token whose `char_start` lies before the chunk's
character end; chunks with no tokens or zero total weight only advance the
audio offset; tokens left over after the last chunk get zero-width timings at
the final audio offset. -/
def build_word_timings_estimate_aux :
    List ChunkRec → List Token → ℚ → List TokenTiming
  | [], tokens, audio_offset =>
      tokens.map (fun token =>
        { token := token.value,
          start_ms := pyRound (audio_offset * 1000),
          end_ms := pyRound (audio_offset * 1000),
          char_start := token.char_start, char_end := token.char_end })
  | record :: rest, tokens, audio_offset =>
      let chunk_end := record.char_offset + record.text.length
      let chunk_tokens := tokens.takeWhile (fun t => decide (t.char_start < chunk_end))
      let remaining_tokens := tokens.dropWhile (fun t => decide (t.char_start < chunk_end))
      if chunk_tokens = [] then
        build_word_timings_estimate_aux rest remaining_tokens (audio_offset + record.duration)
      else
        let total_weight := (chunk_tokens.map Token.weight).sum
        if total_weight = 0 then
          build_word_timings_estimate_aux rest remaining_tokens (audio_offset + record.duration)
        else
          let leading_silence := max 0 record.leading_silence
          let effective_duration := max 0 (record.duration - leading_silence)
          allocTokens chunk_tokens (audio_offset + leading_silence)
              effective_duration effective_duration total_weight
            ++ build_word_timings_estimate_aux rest remaining_tokens
                (audio_offset + record.duration)

/-- Entry point of the Heuristic Timer: `_build_word_timings_estimate`. -/
def build_word_timings_estimate (chunk_records : List ChunkRec) (tokens : List Token) :
    List TokenTiming :=
  build_word_timings_estimate_aux chunk_records tokens 0

end AudioBook

/-- C2 counterexample: a chunk whose only token has weight 0 hits the
`total_weight == 0` `continue`, which has already consumed the token through
the running index, so the token receives no timing at all: the claim's
"exactly one timing per token" fails for this chunk-record/token-list pair. -/
theorem C2_counterexample :
    (AudioBook.build_word_timings_estimate
        [{ text := "a", duration := 1, leading_silence := 0, trailing_silence := 0,
           char_offset := 0 }]
        [{ value := "x", char_start := 0, char_end := 1, weight := 0 }]).length = 0 ∧
    ([{ value := "x", char_start := 0, char_end := 1, weight := 0 }] :
        List AudioBook.Token).length = 1 := by
  constructor
  · decide
  · rfl

namespace AudioBook

theorem allocTokens_length :
    ∀ (ts : List Token) (s rem eff : ℚ) (tw : ℕ),
      (allocTokens ts s rem eff tw).length = ts.length
  | [], _, _, _, _ => rfl
  | [_], _, _, _, _ => rfl
  | _ :: next :: more, s, rem, eff, tw => by
      simp only [allocTokens, List.length_cons]
      rw [allocTokens_length (next :: more)]
      simp

theorem weight_sum_cast_cons (t : Token) (rest : List Token) :
    (((List.map Token.weight (t :: rest)).sum : ℕ) : ℚ) =
      (t.weight : ℚ) + (((List.map Token.weight rest).sum : ℕ) : ℚ) := by
  simp only [List.map_cons, List.sum_cons]
  push_cast
  ring

theorem remaining_max_eq {eff : ℚ} {tw : ℕ} (heff : 0 ≤ eff) (htw : 0 < tw)
    (t : Token) (rest : List Token) :
    max 0 (eff * (((List.map Token.weight (t :: rest)).sum : ℕ) : ℚ) / (tw : ℚ) -
        eff * (t.weight : ℚ) / (tw : ℚ)) =
      eff * (((List.map Token.weight rest).sum : ℕ) : ℚ) / (tw : ℚ) := by
  rw [weight_sum_cast_cons]
  have h2 : eff * ((t.weight : ℚ) + (((List.map Token.weight rest).sum : ℕ) : ℚ)) / (tw : ℚ) -
      eff * (t.weight : ℚ) / (tw : ℚ) =
      eff * (((List.map Token.weight rest).sum : ℕ) : ℚ) / (tw : ℚ) := by ring
  rw [h2]
  apply max_eq_right
  apply div_nonneg (mul_nonneg heff (by positivity)) (by positivity)

theorem allocTokens_getElem (eff : ℚ) (tw : ℕ) (heff : 0 ≤ eff) (htw : 0 < tw) :
    ∀ (ts : List Token) (s : ℚ) (k : ℕ) (tok : Token), ts[k]? = some tok →
      (allocTokens ts s
          (eff * (((ts.map Token.weight).sum : ℕ) : ℚ) / (tw : ℚ)) eff tw)[k]? =
        some { token := tok.value,
               start_ms := pyRound ((s +
                 eff * ((((ts.take k).map Token.weight).sum : ℕ) : ℚ) / (tw : ℚ)) * 1000),
               end_ms := pyRound ((s +
                 eff * ((((ts.take (k+1)).map Token.weight).sum : ℕ) : ℚ) / (tw : ℚ)) * 1000),
               char_start := tok.char_start, char_end := tok.char_end } := by
  intro ts
  induction ts with
  | nil => intro s k tok hk; simp at hk
  | cons t rest ih =>
      intro s k tok hk
      cases rest with
      | nil =>
          cases k with
          | zero =>
              rw [List.getElem?_cons_zero, Option.some.injEq] at hk
              subst hk
              simp only [allocTokens, List.getElem?_cons_zero, Option.some.injEq,
                TokenTiming.mk.injEq]
              refine ⟨trivial, ?_, ?_, trivial, trivial⟩
              · apply congrArg pyRound
                simp only [List.take_zero, List.map_nil, List.sum_nil, Nat.cast_zero]
                ring
              · apply congrArg pyRound
                simp only [List.take_succ_cons, List.take_zero]
          | succ k => simp at hk
      | cons next more =>
          cases k with
          | zero =>
              rw [List.getElem?_cons_zero, Option.some.injEq] at hk
              subst hk
              simp only [allocTokens, List.getElem?_cons_zero, Option.some.injEq,
                TokenTiming.mk.injEq]
              refine ⟨trivial, ?_, ?_, trivial, trivial⟩
              · apply congrArg pyRound
                simp only [List.take_zero, List.map_nil, List.sum_nil, Nat.cast_zero]
                ring
              · apply congrArg pyRound
                simp only [List.take_succ_cons, List.take_zero, List.map_cons,
                  List.map_nil, List.sum_cons, List.sum_nil]
                push_cast
                ring
          | succ k =>
              rw [List.getElem?_cons_succ] at hk
              simp only [allocTokens, List.getElem?_cons_succ]
              rw [remaining_max_eq heff htw t (next :: more)]
              rw [ih (s + eff * (t.weight : ℚ) / (tw : ℚ)) k tok hk]
              simp only [Option.some.injEq, TokenTiming.mk.injEq]
              refine ⟨trivial, ?_, ?_, trivial, trivial⟩
              · apply congrArg pyRound
                simp only [List.take_succ_cons, List.map_cons, List.sum_cons]
                push_cast
                ring
              · apply congrArg pyRound
                simp only [List.take_succ_cons, List.map_cons, List.sum_cons]
                push_cast
                ring

end AudioBook

namespace AudioBook

theorem pyRound_abs_le (q : ℚ) : |((pyRound q : ℤ) : ℚ) - q| ≤ 1/2 := by
  have h1 : ((⌊q⌋ : ℤ) : ℚ) ≤ q := Int.floor_le q
  have h2 : q < (⌊q⌋ : ℚ) + 1 := Int.lt_floor_add_one q
  simp only [pyRound]
  by_cases hc1 : q - (⌊q⌋ : ℚ) < 1/2
  · rw [if_pos hc1]
    rw [abs_le]
    constructor <;> linarith
  · rw [if_neg hc1]
    by_cases hc2 : 1/2 < q - (⌊q⌋ : ℚ)
    · rw [if_pos hc2]
      rw [abs_le]
      push_cast
      constructor <;> linarith
    · rw [if_neg hc2]
      have heq : q - (⌊q⌋ : ℚ) = 1/2 := by linarith
      by_cases hc3 : ⌊q⌋ % 2 = 0
      · rw [if_pos hc3]
        rw [abs_le]
        constructor <;> linarith
      · rw [if_neg hc3]
        rw [abs_le]
        push_cast
        constructor <;> linarith

theorem sum_map_diff_cons (x : TokenTiming) (l : List TokenTiming) :
    ((x :: l).map (fun t => t.end_ms - t.start_ms)).sum =
      (x.end_ms - x.start_ms) + (l.map (fun t => t.end_ms - t.start_ms)).sum := by
  simp

theorem allocTokens_diff_sum (eff : ℚ) (tw : ℕ) (heff : 0 ≤ eff) (htw : 0 < tw) :
    ∀ (ts : List Token) (s : ℚ), ts ≠ [] →
      ((allocTokens ts s
          (eff * (((ts.map Token.weight).sum : ℕ) : ℚ) / (tw : ℚ)) eff tw).map
            (fun t => t.end_ms - t.start_ms)).sum =
        pyRound ((s + eff * (((ts.map Token.weight).sum : ℕ) : ℚ) / (tw : ℚ)) * 1000) -
          pyRound (s * 1000) := by
  intro ts
  induction ts with
  | nil => intro s h; exact absurd rfl h
  | cons t rest ih =>
      intro s _
      cases rest with
      | nil =>
          simp only [allocTokens, List.map_cons, List.map_nil, List.sum_cons, List.sum_nil]
          ring
      | cons next more =>
          simp only [allocTokens]
          rw [sum_map_diff_cons]
          rw [remaining_max_eq heff htw t (next :: more)]
          rw [ih (s + eff * (t.weight : ℚ) / (tw : ℚ)) (by simp)]
          dsimp only
          have harg : s + eff * (t.weight : ℚ) / (tw : ℚ) +
              eff * (((List.map Token.weight (next :: more)).sum : ℕ) : ℚ) / (tw : ℚ) =
              s + eff * (((List.map Token.weight (t :: next :: more)).sum : ℕ) : ℚ) / (tw : ℚ) := by
            rw [weight_sum_cast_cons t (next :: more)]
            ring
          rw [harg]
          ring

theorem estimate_aux_length :
    ∀ (chunks : List ChunkRec) (tokens : List Token) (off : ℚ),
      (∀ t ∈ tokens, 0 < t.weight) →
      (build_word_timings_estimate_aux chunks tokens off).length = tokens.length := by
  intro chunks
  induction chunks with
  | nil =>
      intro tokens off _
      simp [build_word_timings_estimate_aux]
  | cons record rest ih =>
      intro tokens off hpos
      have hsplit : (tokens.takeWhile
            (fun t => decide (t.char_start < record.char_offset + record.text.length))).length +
          (tokens.dropWhile
            (fun t => decide (t.char_start < record.char_offset + record.text.length))).length =
          tokens.length := by
        rw [← List.length_append, List.takeWhile_append_dropWhile]
      have hdropmem : ∀ t ∈ tokens.dropWhile
          (fun t => decide (t.char_start < record.char_offset + record.text.length)),
          0 < t.weight := fun t ht =>
        hpos t ((List.dropWhile_sublist _).subset ht)
      simp only [build_word_timings_estimate_aux]
      by_cases hct : tokens.takeWhile
          (fun t => decide (t.char_start < record.char_offset + record.text.length)) = []
      · rw [if_pos hct]
        rw [ih _ _ hdropmem]
        rw [hct] at hsplit
        simpa using hsplit
      · rw [if_neg hct]
        have htw : ((tokens.takeWhile
            (fun t => decide (t.char_start < record.char_offset + record.text.length))).map
              Token.weight).sum ≠ 0 := by
          rcases List.exists_mem_of_ne_nil _ hct with ⟨t, ht⟩
          have hw : 0 < t.weight :=
            hpos t ((List.takeWhile_sublist _).subset ht)
          have hle : t.weight ≤ ((tokens.takeWhile
              (fun t => decide (t.char_start < record.char_offset + record.text.length))).map
                Token.weight).sum :=
            List.single_le_sum (fun x _ => Nat.zero_le x) _ (List.mem_map_of_mem _ ht)
          omega
        rw [if_neg htw]
        rw [List.length_append, allocTokens_length, ih _ _ hdropmem]
        exact hsplit

end AudioBook

namespace AudioBook

theorem estimate_aux_past_chunks :
    ∀ (chunks : List ChunkRec) (tokens : List Token) (off : ℚ),
      (∀ t ∈ tokens, ∀ c ∈ chunks, c.char_offset + c.text.length ≤ t.char_start) →
      build_word_timings_estimate_aux chunks tokens off =
        tokens.map (fun token =>
          { token := token.value,
            start_ms := pyRound ((off + (chunks.map ChunkRec.duration).sum) * 1000),
            end_ms := pyRound ((off + (chunks.map ChunkRec.duration).sum) * 1000),
            char_start := token.char_start, char_end := token.char_end }) := by
  intro chunks
  induction chunks with
  | nil =>
      intro tokens off _
      simp [build_word_timings_estimate_aux]
  | cons record rest ih =>
      intro tokens off hpast
      have htake : tokens.takeWhile
          (fun t => decide (t.char_start < record.char_offset + record.text.length)) = [] := by
        cases tokens with
        | nil => rfl
        | cons t ts =>
            rw [List.takeWhile_cons]
            have hle := hpast t (List.mem_cons_self _ _) record (List.mem_cons_self _ _)
            simp [Nat.not_lt.mpr hle]
      have hdrop : tokens.dropWhile
          (fun t => decide (t.char_start < record.char_offset + record.text.length)) = tokens := by
        have hsplit := List.takeWhile_append_dropWhile
          (p := fun t => decide (t.char_start < record.char_offset + record.text.length))
          (l := tokens)
        rw [htake] at hsplit
        simpa using hsplit
      simp only [build_word_timings_estimate_aux]
      rw [htake, hdrop, if_pos rfl]
      rw [ih tokens (off + record.duration)
        (fun t ht c hc => hpast t ht c (List.mem_cons_of_mem _ hc))]
      refine List.map_congr_left (fun tok _ => ?_)
      simp only [TokenTiming.mk.injEq]
      refine ⟨trivial, ?_, ?_, trivial, trivial⟩ <;>
        · apply congrArg pyRound
          simp only [List.map_cons, List.sum_cons]
          ring

end AudioBook

/-- C2 amended: provided every token has positive weight (as all
tokenizer-produced tokens do, their weight being at least 3), the Heuristic
Timer returns exactly one timing per token; within a chunk, allocation starts
at the running chunk audio offset plus the chunk's leading silence, token `k`
spans the boundary points `s + eff * W_k / tw` to `s + eff * W_{k+1} / tw`
(weight-proportional, the last token absorbing the remainder so the chunk ends
exactly at `s + eff`), and the chunk's allocated millisecond durations sum to
`eff = chunk.duration - chunk.leading_silence` up to one millisecond of
rounding; tokens past the last chunk receive a zero-width timing at the final
audio offset. Without the positive-weight proviso the first conjunct fails
(see the counterexample): tokens consumed by a chunk whose total weight is
zero are dropped. -/
theorem C2_heuristic_estimate :
    (∀ (chunks : List AudioBook.ChunkRec) (tokens : List AudioBook.Token),
      (∀ t ∈ tokens, 0 < t.weight) →
      (AudioBook.build_word_timings_estimate chunks tokens).length = tokens.length)
  ∧ (∀ (ctoks : List AudioBook.Token) (s eff : ℚ) (tw : ℕ),
      0 ≤ eff → tw = (ctoks.map AudioBook.Token.weight).sum → 0 < tw →
      (∀ (k : ℕ) (tok : AudioBook.Token), ctoks[k]? = some tok →
        (AudioBook.allocTokens ctoks s eff eff tw)[k]? =
          some { token := tok.value,
                 start_ms := AudioBook.pyRound ((s + eff *
                   ((((ctoks.take k).map AudioBook.Token.weight).sum : ℕ) : ℚ) / (tw : ℚ)) * 1000),
                 end_ms := AudioBook.pyRound ((s + eff *
                   ((((ctoks.take (k+1)).map AudioBook.Token.weight).sum : ℕ) : ℚ) / (tw : ℚ)) * 1000),
                 char_start := tok.char_start, char_end := tok.char_end }) ∧
      (ctoks ≠ [] →
        |((((AudioBook.allocTokens ctoks s eff eff tw).map
              (fun t => t.end_ms - t.start_ms)).sum : ℤ) : ℚ) - eff * 1000| ≤ 1))
  ∧ (∀ (record : AudioBook.ChunkRec) (rest : List AudioBook.ChunkRec)
        (tokens : List AudioBook.Token) (off : ℚ),
      tokens.takeWhile
          (fun t => decide (t.char_start < record.char_offset + record.text.length)) ≠ [] →
      ((tokens.takeWhile
          (fun t => decide (t.char_start < record.char_offset + record.text.length))).map
            AudioBook.Token.weight).sum ≠ 0 →
      AudioBook.build_word_timings_estimate_aux (record :: rest) tokens off =
        AudioBook.allocTokens
            (tokens.takeWhile
              (fun t => decide (t.char_start < record.char_offset + record.text.length)))
            (off + max 0 record.leading_silence)
            (max 0 (record.duration - max 0 record.leading_silence))
            (max 0 (record.duration - max 0 record.leading_silence))
            ((tokens.takeWhile
              (fun t => decide (t.char_start < record.char_offset + record.text.length))).map
                AudioBook.Token.weight).sum
          ++ AudioBook.build_word_timings_estimate_aux rest
              (tokens.dropWhile
                (fun t => decide (t.char_start < record.char_offset + record.text.length)))
              (off + record.duration))
  ∧ (∀ (chunks : List AudioBook.ChunkRec) (tokens : List AudioBook.Token),
      (∀ t ∈ tokens, ∀ c ∈ chunks, c.char_offset + c.text.length ≤ t.char_start) →
      AudioBook.build_word_timings_estimate chunks tokens =
        tokens.map (fun token =>
          { token := token.value,
            start_ms := AudioBook.pyRound
              (((chunks.map AudioBook.ChunkRec.duration).sum) * 1000),
            end_ms := AudioBook.pyRound
              (((chunks.map AudioBook.ChunkRec.duration).sum) * 1000),
            char_start := token.char_start, char_end := token.char_end })) := by
  refine ⟨?_, ?_, ?_, ?_⟩
  · intro chunks tokens hpos
    exact AudioBook.estimate_aux_length chunks tokens 0 hpos
  · intro ctoks s eff tw heff htw hpos
    have hne : ((tw : ℕ) : ℚ) ≠ 0 := by exact_mod_cast Nat.pos_iff_ne_zero.mp hpos
    have hcancel : eff * (((ctoks.map AudioBook.Token.weight).sum : ℕ) : ℚ) / (tw : ℚ) = eff := by
      rw [← htw]
      field_simp
    constructor
    · intro k tok hk
      have h := AudioBook.allocTokens_getElem eff tw heff hpos ctoks s k tok hk
      rwa [hcancel] at h
    · intro hcn
      have h := AudioBook.allocTokens_diff_sum eff tw heff hpos ctoks s hcn
      rw [hcancel] at h
      rw [h]
      have h1 := AudioBook.pyRound_abs_le ((s + eff) * 1000)
      have h2 := AudioBook.pyRound_abs_le (s * 1000)
      rw [abs_le] at h1 h2
      rw [abs_le]
      have hexp : (s + eff) * 1000 = s * 1000 + eff * 1000 := by ring
      push_cast
      constructor <;> linarith
  · intro record rest tokens off h1 h2
    simp only [AudioBook.build_word_timings_estimate_aux]
    rw [if_neg h1, if_neg h2]
  · intro chunks tokens hpast
    unfold AudioBook.build_word_timings_estimate
    rw [AudioBook.estimate_aux_past_chunks chunks tokens 0 hpast]
    refine List.map_congr_left (fun tok _ => ?_)
    simp only [AudioBook.TokenTiming.mk.injEq]
    refine ⟨trivial, ?_, ?_, trivial, trivial⟩ <;>
      · apply congrArg AudioBook.pyRound
        ring

/-- C2 witness: one chunk of text `"ab cd"`, duration 10s with 2s of leading
silence, and tokens `"ab"`/`"cd"` of weight 3 inside the chunk plus `"xx"`
past it: allocation starts at 2s, splits the effective 8s evenly (equal
weights) at 6s, ends exactly at 10s, and the trailing token gets a zero-width
timing at 10s. -/
theorem C2_heuristic_estimate_witness :
    (AudioBook.build_word_timings_estimate
        [{ text := "ab cd", duration := 10, leading_silence := 2, trailing_silence := 0,
           char_offset := 0 }]
        [{ value := "ab", char_start := 0, char_end := 2, weight := 3 },
         { value := "cd", char_start := 3, char_end := 5, weight := 3 },
         { value := "xx", char_start := 6, char_end := 8, weight := 3 }]).length = 3 ∧
    (AudioBook.allocTokens
        [{ value := "ab", char_start := 0, char_end := 2, weight := 3 },
         { value := "cd", char_start := 3, char_end := 5, weight := 3 }] 2 8 8 6)[1]? =
      some { token := "cd", start_ms := 6000, end_ms := 10000, char_start := 3,
             char_end := 5 } ∧
    |((((AudioBook.allocTokens
        [{ value := "ab", char_start := 0, char_end := 2, weight := 3 },
         { value := "cd", char_start := 3, char_end := 5, weight := 3 }] 2 8 8 6).map
          (fun t => t.end_ms - t.start_ms)).sum : ℤ) : ℚ) - 8 * 1000| ≤ 1 ∧
    AudioBook.build_word_timings_estimate
        [{ text := "ab cd", duration := 10, leading_silence := 2, trailing_silence := 0,
           char_offset := 0 }]
        [{ value := "xx", char_start := 6, char_end := 8, weight := 3 }] =
      [{ token := "xx", start_ms := 10000, end_ms := 10000, char_start := 6,
         char_end := 8 }] := by
  refine ⟨?_, ?_, ?_, ?_⟩
  · exact C2_heuristic_estimate.1 _ _ (by decide)
  · have h := (C2_heuristic_estimate.2.1
        [{ value := "ab", char_start := 0, char_end := 2, weight := 3 },
         { value := "cd", char_start := 3, char_end := 5, weight := 3 }] 2 8 6
        (by norm_num) (by decide) (by decide)).1 1
        { value := "cd", char_start := 3, char_end := 5, weight := 3 } (by decide)
    rw [h]
    norm_num [AudioBook.pyRound]
  · exact (C2_heuristic_estimate.2.1
        [{ value := "ab", char_start := 0, char_end := 2, weight := 3 },
         { value := "cd", char_start := 3, char_end := 5, weight := 3 }] 2 8 6
        (by norm_num) (by decide) (by decide)).2 (by decide)
  · have h := C2_heuristic_estimate.2.2.2
        [{ text := "ab cd", duration := 10, leading_silence := 2, trailing_silence := 0,
           char_offset := 0 }]
        [{ value := "xx", char_start := 6, char_end := 8, weight := 3 }]
        (by decide)
    rw [h]
    norm_num [AudioBook.pyRound]

namespace AudioBook

/-- Word-level span in seconds (`{"start": ..., "end": ...}` dicts built by the
alignment engine). -/
structure TimeSpan where
  start : ℚ
  end_ : ℚ
deriving DecidableEq, Repr

/-- One recognized word from the speech backend (`_flatten_words` output):
text plus start/end timestamps, start ≤ end by construction there. -/
structure WordInfo where
  text : String
  start : ℚ
  end_ : ℚ
deriving DecidableEq, Repr

/-- `_normalize_token` (alignment.py lines 39-40): lowercase, then drop every
character outside `[0-9a-z]` (`TOKEN_NORMALIZER` with IGNORECASE), in the
ASCII model. -/
def normalize_token (s : String) : String :=
  ⟨(s.data.map Char.toLower).filter (fun c => c.isAlphanum)⟩

/-- One `difflib.SequenceMatcher.get_opcodes()` entry `(tag, i1, i2, j1, j2)`. -/
structure Opcode where
  tag : String
  i1 : ℕ
  i2 : ℕ
  j1 : ℕ
  j2 : ℕ
deriving DecidableEq, Repr

/-- Write one entry of the `assignments` dict. -/
def setAsn (a : ℕ → Option TimeSpan) (k : ℕ) (v : TimeSpan) : ℕ → Option TimeSpan :=
  fun i => if i = k then some v else a i

/-- Value stored for the token at enumeration index `idx` of a non-equal run
(`_assign_span` loop body, alignment.py lines 149-161): the bounding span cut
uniformly by token count, or the collapse point when the span has zero
duration; the stored end is clamped to the stored start. -/
def span_slot (span_start span_end span_duration : ℚ) (count idx : ℕ) : TimeSpan :=
  let token_start := if span_duration = 0 then span_start
    else span_start + span_duration * ((idx : ℚ) / (count : ℚ))
  let token_end := if span_duration = 0 then span_end
    else span_start + span_duration * (((idx : ℚ) + 1) / (count : ℚ))
  ⟨token_start, max token_start token_end⟩

/-- Enumerated assignment loop of `_assign_span`. -/
def assign_span_loop (span_start span_end span_duration : ℚ) (count : ℕ) :
    ℕ → List (ℕ × String) → (ℕ → Option TimeSpan) → (ℕ → Option TimeSpan)
  | _, [], a => a
  | idx, (token_index, _) :: rest, a =>
      assign_span_loop span_start span_end span_duration count (idx + 1) rest
        (setAsn a token_index (span_slot span_start span_end span_duration count idx))

/-- `_assign_span` (alignment.py lines 135-161): no-op when either side of the
run is empty; otherwise distribute the bounding recognized span (floored so
end ≥ start) uniformly across the run's tokens. -/
def assign_span (token_entries : List (ℕ × String)) (word_entries : List TimeSpan)
    (assignments : ℕ → Option TimeSpan) : ℕ → Option TimeSpan :=
  match token_entries, word_entries with
  | [], _ => assignments
  | _, [] => assignments
  | te, w0 :: wr =>
      let span_start := w0.start
      let span_end := max span_start (wr.getLastD w0).end_
      let span_duration := max 0 (span_end - span_start)
      assign_span_loop span_start span_end span_duration te.length 0 te assignments

/-- Equal-run branch of the opcode loop (alignment.py lines 194-201): token
`i1+offset` receives exactly recognized word `j1+offset`'s start/end. -/
def apply_equal (TE : List (ℕ × String)) (WE : List (String × TimeSpan))
    (i1 j1 n : ℕ) (a : ℕ → Option TimeSpan) : ℕ → Option TimeSpan :=
  (List.range n).foldl (fun a offset =>
    match TE[i1 + offset]?, WE[j1 + offset]? with
    | some te, some we => setAsn a te.1 ⟨we.2.start, we.2.end_⟩
    | _, _ => a) a

/-- One iteration of the opcode loop of `_map_words_to_tokens` (alignment.py
lines 193-205): equal runs copy word spans positionally; all other runs go
through `_assign_span` on the Python slices `[i1:i2]` / `[j1:j2]`. -/
def opcode_step (TE : List (ℕ × String)) (WE : List (String × TimeSpan))
    (a : ℕ → Option TimeSpan) (op : Opcode) : ℕ → Option TimeSpan :=
  if op.tag = "equal" then apply_equal TE WE op.i1 op.j1 (op.i2 - op.i1) a
  else assign_span ((TE.drop op.i1).take (op.i2 - op.i1))
    (((WE.drop op.j1).take (op.j2 - op.j1)).map (fun e => e.2)) a

/-- Opcode loop of `_map_words_to_tokens` (alignment.py lines 192-205), over a
given edit script (the `SequenceMatcher(None, ..., autojunk=False)` opcodes
are an input here). -/
def process_opcodes (TE : List (ℕ × String)) (WE : List (String × TimeSpan))
    (ops : List Opcode) : ℕ → Option TimeSpan :=
  ops.foldl (opcode_step TE WE) (fun _ => none)

/-- Monotone post-pass of `_map_words_to_tokens` (alignment.py lines 207-218):
clamp each assigned span's start below the running previous end; unassigned
entries stay `None` and leave the running end untouched. -/
def post_pass_aux (last_end : ℚ) : List (Option TimeSpan) → List (Option TimeSpan)
  | [] => []
  | none :: rest => none :: post_pass_aux last_end rest
  | some a :: rest =>
      let start := max last_end a.start
      let e := max start a.end_
      some ⟨start, e⟩ :: post_pass_aux e rest

/-- The post-pass starts with `last_end = 0.0`. -/
def post_pass (entries : List (Option TimeSpan)) : List (Option TimeSpan) :=
  post_pass_aux 0 entries

/-- `_map_words_to_tokens` (alignment.py lines 164-219), with the edit script
supplied: build the normalized comparison sequences (tokens without any word
character, or normalizing to the empty string, are excluded but keep their
index), bail out to all-`None` when either sequence is empty, else run the
opcode loop and the monotone post-pass over the per-index lookups. -/
def map_words_to_tokens (tokens : List Token) (words : List WordInfo)
    (ops : List Opcode) : List (Option TimeSpan) :=
  let token_word_entries := tokens.enum.filterMap (fun p =>
    if p.2.value.data.any (fun c => isWordChar c) then
      if normalize_token p.2.value = "" then none
      else some (p.1, normalize_token p.2.value)
    else none)
  let whisper_entries := words.filterMap (fun w =>
    if normalize_token w.text = "" then none
    else some (normalize_token w.text, (⟨w.start, w.end_⟩ : TimeSpan)))
  if token_word_entries = [] ∨ whisper_entries = [] then
    List.replicate tokens.length none
  else
    post_pass ((List.range tokens.length).map
      (process_opcodes token_word_entries whisper_entries ops))

end AudioBook

namespace AudioBook

/-- Overwrite loop of `_build_precise_timings` (kokoro_tts_provider.py lines
165-171): where the alignment produced a span, replace the heuristic timing's
millisecond bounds by `int(start*1000)` and `max(start_ms, int(end*1000))`;
`None` entries leave the heuristic timing untouched. -/
def overwrite_timings : List TokenTiming → List (Option TimeSpan) → List TokenTiming
  | ts, [] => ts
  | [], _ => []
  | t :: ts, none :: al => t :: overwrite_timings ts al
  | t :: ts, some a :: al =>
      let start_ms := pyTrunc (a.start * 1000)
      let end_ms := pyTrunc (a.end_ * 1000)
      { t with start_ms := start_ms, end_ms := max start_ms end_ms } ::
        overwrite_timings ts al

/-- Monotonic repair pass of `_build_precise_timings` (lines 173-177). -/
def repair_timings (previous_end : ℤ) : List TokenTiming → List TokenTiming
  | [] => []
  | t :: ts =>
      let start_ms := max t.start_ms previous_end
      let end_ms := max t.end_ms start_ms
      { t with start_ms := start_ms, end_ms := end_ms } :: repair_timings end_ms ts

theorem post_pass_aux_isSome :
    ∀ (l : List (Option TimeSpan)) (last_end : ℚ),
      (post_pass_aux last_end l).map Option.isSome = l.map Option.isSome := by
  intro l
  induction l with
  | nil => intro le; rfl
  | cons x rest ih =>
      intro le
      cases x with
      | none => simp [post_pass_aux, ih]
      | some a => simp [post_pass_aux, ih]

theorem post_pass_aux_spec :
    ∀ (l : List (Option TimeSpan)) (last_end : ℚ),
      (∀ s ∈ (post_pass_aux last_end l).reduceOption,
          last_end ≤ s.start ∧ s.start ≤ s.end_) ∧
      ((post_pass_aux last_end l).reduceOption).Chain'
        (fun a b => a.end_ ≤ b.start) := by
  intro l
  induction l with
  | nil => intro le; exact ⟨fun s hs => absurd hs (by simp [post_pass_aux]), by
      simp [post_pass_aux]⟩
  | cons x rest ih =>
      intro le
      cases x with
      | none =>
          simp only [post_pass_aux, List.reduceOption_cons_of_none]
          exact ih le
      | some a =>
          simp only [post_pass_aux, List.reduceOption_cons_of_some]
          constructor
          · intro s hs
            rcases List.mem_cons.mp hs with rfl | hs
            · exact ⟨le_max_left _ _, le_max_left _ _⟩
            · have h := (ih (max (max le a.start) a.end_)).1 s hs
              refine ⟨le_trans ?_ h.1, h.2⟩
              exact le_trans (le_max_left le a.start) (le_max_left _ _)
          · rw [List.chain'_cons']
            refine ⟨?_, (ih (max (max le a.start) a.end_)).2⟩
            intro y hy
            have hmem := List.mem_of_mem_head? hy
            exact ((ih (max (max le a.start) a.end_)).1 y hmem).1

theorem repair_timings_spec :
    ∀ (l : List TokenTiming) (p : ℤ),
      (∀ t ∈ repair_timings p l, t.start_ms ≤ t.end_ms ∧ p ≤ t.start_ms) ∧
      (repair_timings p l).Chain' (fun a b => a.end_ms ≤ b.start_ms) := by
  intro l
  induction l with
  | nil => intro p; exact ⟨fun t ht => absurd ht (by simp [repair_timings]), by
      simp [repair_timings]⟩
  | cons t rest ih =>
      intro p
      simp only [repair_timings]
      constructor
      · intro u hu
        rcases List.mem_cons.mp hu with rfl | hu
        · exact ⟨le_max_right _ _, le_max_right _ _⟩
        · have h := (ih (max t.end_ms (max t.start_ms p))).1 u hu
          refine ⟨h.1, le_trans ?_ h.2⟩
          exact le_trans (le_max_right _ _) (le_max_right _ _)
      · rw [List.chain'_cons']
        refine ⟨?_, (ih (max t.end_ms (max t.start_ms p))).2⟩
        intro y hy
        have hmem := List.mem_of_mem_head? hy
        exact ((ih (max t.end_ms (max t.start_ms p))).1 y hmem).2

end AudioBook

namespace AudioBook

theorem reduceOption_replicate_none (n : ℕ) :
    (List.replicate n (none : Option TimeSpan)).reduceOption = [] := by
  induction n with
  | zero => rfl
  | succ n ih => simp [List.replicate_succ, List.reduceOption_cons_of_none, ih]

theorem map_words_to_tokens_cases (tokens : List Token) (words : List WordInfo)
    (ops : List Opcode) :
    map_words_to_tokens tokens words ops = List.replicate tokens.length none ∨
    ∃ l, map_words_to_tokens tokens words ops = post_pass l := by
  simp only [map_words_to_tokens]
  split
  · exact Or.inl rfl
  · exact Or.inr ⟨_, rfl⟩

end AudioBook

/-- C1: every timing list the pipeline produces is non-overlapping and
non-decreasing. In the alignment post-pass: assigned entries satisfy
`start ≤ end`, consecutive assigned entries satisfy `previous end ≤ next
start`, and unassigned (`None`) entries stay `None`, pass through unchanged
and do not update the running previous end; the same holds for the full
`_map_words_to_tokens` output for any edit script. In the combined list —
heuristic timings overwritten by alignment entries, then repaired — every
entry satisfies `start_ms ≤ end_ms` and `start_ms[i] ≥ end_ms[i-1]`. -/
theorem C1_monotone_timings :
    (∀ l : List (Option AudioBook.TimeSpan),
      (AudioBook.post_pass l).map Option.isSome = l.map Option.isSome)
  ∧ (∀ (last_end : ℚ) (l : List (Option AudioBook.TimeSpan)),
      AudioBook.post_pass_aux last_end (none :: l) =
        none :: AudioBook.post_pass_aux last_end l)
  ∧ (∀ l : List (Option AudioBook.TimeSpan),
      ∀ s ∈ (AudioBook.post_pass l).reduceOption, s.start ≤ s.end_)
  ∧ (∀ l : List (Option AudioBook.TimeSpan),
      ((AudioBook.post_pass l).reduceOption).Chain' (fun a b => a.end_ ≤ b.start))
  ∧ (∀ (tokens : List AudioBook.Token) (words : List AudioBook.WordInfo)
        (ops : List AudioBook.Opcode),
      (∀ s ∈ (AudioBook.map_words_to_tokens tokens words ops).reduceOption,
        s.start ≤ s.end_) ∧
      ((AudioBook.map_words_to_tokens tokens words ops).reduceOption).Chain'
        (fun a b => a.end_ ≤ b.start))
  ∧ (∀ (ts : List AudioBook.TokenTiming) (al : List (Option AudioBook.TimeSpan)),
      (∀ t ∈ AudioBook.repair_timings 0 (AudioBook.overwrite_timings ts al),
        t.start_ms ≤ t.end_ms) ∧
      (AudioBook.repair_timings 0 (AudioBook.overwrite_timings ts al)).Chain'
        (fun a b => a.end_ms ≤ b.start_ms)) := by
  refine ⟨?_, ?_, ?_, ?_, ?_, ?_⟩
  · intro l
    exact AudioBook.post_pass_aux_isSome l 0
  · intro last_end l
    rfl
  · intro l s hs
    exact ((AudioBook.post_pass_aux_spec l 0).1 s hs).2
  · intro l
    exact (AudioBook.post_pass_aux_spec l 0).2
  · intro tokens words ops
    rcases AudioBook.map_words_to_tokens_cases tokens words ops with h | ⟨l, h⟩
    · rw [h, AudioBook.reduceOption_replicate_none]
      exact ⟨fun s hs => absurd hs (by simp), by simp⟩
    · rw [h]
      exact ⟨fun s hs => ((AudioBook.post_pass_aux_spec l 0).1 s hs).2,
        (AudioBook.post_pass_aux_spec l 0).2⟩
  · intro ts al
    exact ⟨fun t ht => ((AudioBook.repair_timings_spec (AudioBook.overwrite_timings ts al) 0).1
        t ht).1,
      (AudioBook.repair_timings_spec (AudioBook.overwrite_timings ts al) 0).2⟩

namespace AudioBook

/-- Backend attempt loop of `align_tokens_with_audio` (alignment.py lines
413-447): each backend returns either `None` (not installed, model-load or
transcription failure, or no word-level timestamps) or a per-token list of
optional spans; the loop returns the first result containing at least one
usable entry, otherwise the last result obtained. -/
def align_backend_loop :
    List (Option (List (Option TimeSpan))) → Option (List (Option TimeSpan)) →
      Option (List (Option TimeSpan))
  | [], alignment => alignment
  | r :: rs, _ =>
      if (match r with
          | some al => al.any (fun e => e.isSome)
          | none => false) then r
      else align_backend_loop rs r

/-- `align_tokens_with_audio` (alignment.py lines 391-447) with the external
backend outputs abstracted as inputs: empty token lists yield `None`, else the
backend queue is tried in order. -/
def align_tokens_with_audio (token_list : List Token)
    (backendResults : List (Option (List (Option TimeSpan)))) :
    Option (List (Option TimeSpan)) :=
  if token_list = [] then none
  else align_backend_loop backendResults none

/-- `_build_precise_timings` (kokoro_tts_provider.py lines 146-182) with the
recognition backends abstracted: build heuristic timings, and only when the
alignment result is truthy with at least one usable entry, overwrite and
re-apply the monotonic repair; otherwise the heuristic timings are returned
unchanged. -/
def build_precise_timings (chunk_records : List ChunkRec) (tokens : List Token)
    (backendResults : List (Option (List (Option TimeSpan)))) : List TokenTiming :=
  let timings := build_word_timings_estimate chunk_records tokens
  match align_tokens_with_audio tokens backendResults with
  | some al =>
      if al.any (fun e => e.isSome) then repair_timings 0 (overwrite_timings timings al)
      else timings
  | none => timings

/-- A backend result that carries no usable word timing: the backend signalled
"unavailable" (`None`), or its alignment assigned no token. -/
def unavailableResult (r : Option (List (Option TimeSpan))) : Prop :=
  match r with
  | none => True
  | some al => ∀ e ∈ al, e = none

theorem unavailable_any_false {al : List (Option TimeSpan)}
    (h : ∀ e ∈ al, e = none) : al.any (fun e => e.isSome) = false := by
  rw [List.any_eq_false]
  intro e he
  rw [h e he]
  simp

theorem align_backend_loop_unavailable :
    ∀ (rs : List (Option (List (Option TimeSpan))))
      (acc : Option (List (Option TimeSpan))),
      unavailableResult acc → (∀ r ∈ rs, unavailableResult r) →
      unavailableResult (align_backend_loop rs acc) := by
  intro rs
  induction rs with
  | nil => intro acc hacc _; exact hacc
  | cons r rs ih =>
      intro acc _ hall
      have hr : unavailableResult r := hall r (List.mem_cons_self _ _)
      have hrest : ∀ x ∈ rs, unavailableResult x :=
        fun x hx => hall x (List.mem_cons_of_mem _ hx)
      cases r with
      | none =>
          simp only [align_backend_loop]
          rw [if_neg (by simp)]
          exact ih none trivial hrest
      | some al =>
          have hfalse : al.any (fun e => e.isSome) = false :=
            unavailable_any_false hr
          simp only [align_backend_loop]
          rw [if_neg (by simp [hfalse])]
          exact ih (some al) hr hrest

end AudioBook

/-- C7: when the recognition/alignment engine is unavailable — each backend
either signals unavailability (`None`: not installed, transcription failed, no
word timestamps) or returns an alignment with no non-`None` entry — the
chapter's final timing list is the Heuristic Timer output unchanged (the
fallback path returns normally; no exception escapes). -/
theorem C7_heuristic_fallback
    (chunks : List AudioBook.ChunkRec) (tokens : List AudioBook.Token)
    (backendResults : List (Option (List (Option AudioBook.TimeSpan))))
    (h : ∀ r ∈ backendResults, AudioBook.unavailableResult r) :
    AudioBook.build_precise_timings chunks tokens backendResults =
      AudioBook.build_word_timings_estimate chunks tokens := by
  have hal : AudioBook.unavailableResult
      (AudioBook.align_tokens_with_audio tokens backendResults) := by
    unfold AudioBook.align_tokens_with_audio
    by_cases htok : tokens = []
    · rw [if_pos htok]; trivial
    · rw [if_neg htok]
      exact AudioBook.align_backend_loop_unavailable backendResults none trivial h
  unfold AudioBook.build_precise_timings
  cases hres : AudioBook.align_tokens_with_audio tokens backendResults with
  | none => rfl
  | some al =>
      rw [hres] at hal
      have hfalse : al.any (fun e => e.isSome) = false :=
        AudioBook.unavailable_any_false hal
      simp only [hfalse]
      rw [if_neg (by simp)]

/-- C7 witness: one backend not installed (`None`) followed by one that
transcribed but assigned no token (`some [none]`): the precise-timing builder
returns exactly the heuristic estimate for a one-token chapter. -/
theorem C7_heuristic_fallback_witness :
    AudioBook.build_precise_timings []
        [{ value := "a", char_start := 0, char_end := 1, weight := 3 }]
        [none, some [none]] =
      AudioBook.build_word_timings_estimate []
        [{ value := "a", char_start := 0, char_end := 1, weight := 3 }] := by
  apply C7_heuristic_fallback
  intro r hr
  rcases List.mem_cons.mp hr with rfl | hr
  · trivial
  · rcases List.mem_cons.mp hr with rfl | hr
    · intro e he
      simpa using List.mem_singleton.mp he
    · cases hr

namespace AudioBook

theorem setAsn_same (a : ℕ → Option TimeSpan) (k : ℕ) (v : TimeSpan) :
    setAsn a k v k = some v := by simp [setAsn]

theorem setAsn_other (a : ℕ → Option TimeSpan) (k : ℕ) (v : TimeSpan) {i : ℕ}
    (h : i ≠ k) : setAsn a k v i = a i := by simp [setAsn, h]

theorem sorted_keys_lt {TE : List (ℕ × String)}
    (hs : (TE.map Prod.fst).Pairwise (· < ·)) {p q : ℕ} {tp tq : ℕ × String}
    (hpq : p < q) (hp : TE[p]? = some tp) (hq : TE[q]? = some tq) :
    tp.1 < tq.1 := by
  rcases List.getElem?_eq_some.mp hp with ⟨hplen, hpe⟩
  rcases List.getElem?_eq_some.mp hq with ⟨hqlen, hqe⟩
  have := List.pairwise_iff_getElem.mp hs p q
    (by simpa using hplen) (by simpa using hqlen) hpq
  simpa [List.getElem_map, hpe, hqe] using this

theorem assign_span_loop_untouched (ss se sd : ℚ) (n : ℕ) :
    ∀ (te : List (ℕ × String)) (idx : ℕ) (a : ℕ → Option TimeSpan) (i : ℕ),
      (∀ p ∈ te, p.1 ≠ i) → assign_span_loop ss se sd n idx te a i = a i := by
  intro te
  induction te with
  | nil => intro idx a i _; rfl
  | cons q rest ih =>
      intro idx a i h
      obtain ⟨ti, str⟩ := q
      simp only [assign_span_loop]
      rw [ih (idx + 1) _ i (fun p hp => h p (List.mem_cons_of_mem _ hp))]
      exact setAsn_other a ti _ (fun he =>
        (h (ti, str) (List.mem_cons_self _ _)) he.symm)

theorem assign_span_loop_getElem (ss se sd : ℚ) (n : ℕ) :
    ∀ (te : List (ℕ × String)) (idx : ℕ) (a : ℕ → Option TimeSpan)
      (k : ℕ) (p : ℕ × String),
      te[k]? = some p → (te.map Prod.fst).Pairwise (· < ·) →
      assign_span_loop ss se sd n idx te a p.1 =
        some (span_slot ss se sd n (idx + k)) := by
  intro te
  induction te with
  | nil => intro idx a k p hk; simp at hk
  | cons q rest ih =>
      intro idx a k p hk hsorted
      obtain ⟨ti, str⟩ := q
      cases k with
      | zero =>
          rw [List.getElem?_cons_zero, Option.some.injEq] at hk
          subst hk
          simp only [assign_span_loop, Nat.add_zero]
          rw [List.map_cons] at hsorted
          have hrest : ∀ r ∈ rest, r.1 ≠ ti := by
            intro r hr he
            have := (List.pairwise_cons.mp hsorted).1 r.1
              (List.mem_map_of_mem Prod.fst hr)
            omega
          rw [assign_span_loop_untouched ss se sd n rest (idx + 1) _ ti hrest]
          exact setAsn_same a ti _
      | succ k =>
          rw [List.getElem?_cons_succ] at hk
          rw [List.map_cons] at hsorted
          simp only [assign_span_loop]
          rw [ih (idx + 1) _ k p hk (List.pairwise_cons.mp hsorted).2]
          have : idx + 1 + k = idx + (k + 1) := by omega
          rw [this]

theorem assign_span_untouched (te : List (ℕ × String)) (we : List TimeSpan)
    (a : ℕ → Option TimeSpan) (i : ℕ) (h : ∀ p ∈ te, p.1 ≠ i) :
    assign_span te we a i = a i := by
  cases te with
  | nil => cases we with
      | nil => rfl
      | cons w0 wr => rfl
  | cons t0 tr =>
      cases we with
      | nil => rfl
      | cons w0 wr =>
          simp only [assign_span]
          exact assign_span_loop_untouched _ _ _ _ _ 0 a i h

theorem assign_span_getElem (t0 : ℕ × String) (tr : List (ℕ × String))
    (w0 : TimeSpan) (wr : List TimeSpan) (a : ℕ → Option TimeSpan)
    (k : ℕ) (p : ℕ × String)
    (hk : (t0 :: tr)[k]? = some p)
    (hsorted : ((t0 :: tr).map Prod.fst).Pairwise (· < ·)) :
    assign_span (t0 :: tr) (w0 :: wr) a p.1 =
      some (span_slot w0.start (max w0.start (wr.getLastD w0).end_)
        (max 0 (max w0.start (wr.getLastD w0).end_ - w0.start))
        (t0 :: tr).length k) := by
  simp only [assign_span]
  have := assign_span_loop_getElem w0.start (max w0.start (wr.getLastD w0).end_)
    (max 0 (max w0.start (wr.getLastD w0).end_ - w0.start)) (t0 :: tr).length
    (t0 :: tr) 0 a k p hk hsorted
  simpa using this

end AudioBook

namespace AudioBook

theorem apply_equal_zero (TE : List (ℕ × String)) (WE : List (String × TimeSpan))
    (i1 j1 : ℕ) (a : ℕ → Option TimeSpan) :
    apply_equal TE WE i1 j1 0 a = a := rfl

theorem apply_equal_succ_some (TE : List (ℕ × String)) (WE : List (String × TimeSpan))
    {i1 j1 n : ℕ} (a : ℕ → Option TimeSpan) {tq : ℕ × String}
    {wq : String × TimeSpan}
    (h1 : TE[i1 + n]? = some tq) (h2 : WE[j1 + n]? = some wq) :
    apply_equal TE WE i1 j1 (n + 1) a =
      setAsn (apply_equal TE WE i1 j1 n a) tq.1 ⟨wq.2.start, wq.2.end_⟩ := by
  unfold apply_equal
  rw [List.range_succ, List.foldl_append, List.foldl_cons, List.foldl_nil, h1, h2]

theorem apply_equal_succ_skip (TE : List (ℕ × String)) (WE : List (String × TimeSpan))
    {i1 j1 n : ℕ} (a : ℕ → Option TimeSpan)
    (h : TE[i1 + n]? = none ∨ WE[j1 + n]? = none) :
    apply_equal TE WE i1 j1 (n + 1) a = apply_equal TE WE i1 j1 n a := by
  unfold apply_equal
  rw [List.range_succ, List.foldl_append, List.foldl_cons, List.foldl_nil]
  rcases h with h | h
  · rw [h]
  · rw [h]
    cases TE[i1 + n]? <;> rfl

theorem apply_equal_untouched (TE : List (ℕ × String)) (WE : List (String × TimeSpan))
    (i1 j1 : ℕ) :
    ∀ (n : ℕ) (a : ℕ → Option TimeSpan) (i : ℕ),
      (∀ (pos : ℕ) (tp : ℕ × String), i1 ≤ pos → TE[pos]? = some tp → tp.1 ≠ i) →
      apply_equal TE WE i1 j1 n a i = a i := by
  intro n
  induction n with
  | zero => intro a i _; rfl
  | succ n ih =>
      intro a i h
      cases h1 : TE[i1 + n]? with
      | none => rw [apply_equal_succ_skip TE WE a (Or.inl h1)]; exact ih a i h
      | some tq =>
          cases h2 : WE[j1 + n]? with
          | none => rw [apply_equal_succ_skip TE WE a (Or.inr h2)]; exact ih a i h
          | some wq =>
              rw [apply_equal_succ_some TE WE a h1 h2]
              rw [setAsn_other _ _ _ (fun he =>
                (h (i1 + n) tq (Nat.le_add_right _ _) h1) he.symm)]
              exact ih a i h

theorem apply_equal_getElem (TE : List (ℕ × String)) (WE : List (String × TimeSpan))
    (i1 j1 : ℕ) (hs : (TE.map Prod.fst).Pairwise (· < ·)) :
    ∀ (n : ℕ) (a : ℕ → Option TimeSpan) (off : ℕ) (tp : ℕ × String)
      (wp : String × TimeSpan), off < n →
      TE[i1 + off]? = some tp → WE[j1 + off]? = some wp →
      apply_equal TE WE i1 j1 n a tp.1 = some ⟨wp.2.start, wp.2.end_⟩ := by
  intro n
  induction n with
  | zero => intro a off tp wp hoff; omega
  | succ n ih =>
      intro a off tp wp hoff h1 h2
      by_cases heq : off = n
      · subst heq
        rw [apply_equal_succ_some TE WE a h1 h2]
        exact setAsn_same _ _ _
      · have hlt : off < n := by omega
        cases h1' : TE[i1 + n]? with
        | none =>
            rw [apply_equal_succ_skip TE WE a (Or.inl h1')]
            exact ih a off tp wp hlt h1 h2
        | some tq =>
            cases h2' : WE[j1 + n]? with
            | none =>
                rw [apply_equal_succ_skip TE WE a (Or.inr h2')]
                exact ih a off tp wp hlt h1 h2
            | some wq =>
                rw [apply_equal_succ_some TE WE a h1' h2']
                rw [setAsn_other _ _ _ (fun he => by
                  have hkey := sorted_keys_lt hs (p := i1 + off) (q := i1 + n)
                    (by omega) h1 h1'
                  omega)]
                exact ih a off tp wp hlt h1 h2

theorem slice_getElem {TE : List (ℕ × String)} {i1 m k : ℕ} {p : ℕ × String}
    (h : ((TE.drop i1).take m)[k]? = some p) :
    k < m ∧ TE[i1 + k]? = some p := by
  rw [List.getElem?_take] at h
  by_cases hk : k < m
  · rw [if_pos hk, List.getElem?_drop] at h
    exact ⟨hk, h⟩
  · rw [if_neg hk] at h
    cases h

theorem opcode_step_untouched (TE : List (ℕ × String)) (WE : List (String × TimeSpan))
    (op : Opcode) (a : ℕ → Option TimeSpan) (i : ℕ)
    (h : ∀ (pos : ℕ) (tp : ℕ × String), op.i1 ≤ pos → TE[pos]? = some tp → tp.1 ≠ i) :
    opcode_step TE WE a op i = a i := by
  unfold opcode_step
  by_cases htag : op.tag = "equal"
  · rw [if_pos htag]
    exact apply_equal_untouched TE WE op.i1 op.j1 (op.i2 - op.i1) a i h
  · rw [if_neg htag]
    apply assign_span_untouched
    intro p hp
    rcases List.mem_iff_getElem?.mp hp with ⟨k, hk⟩
    rcases slice_getElem hk with ⟨_, hTE⟩
    exact h (op.i1 + k) p (Nat.le_add_right _ _) hTE

theorem foldl_opcode_untouched (TE : List (ℕ × String)) (WE : List (String × TimeSpan)) :
    ∀ (l : List Opcode) (a : ℕ → Option TimeSpan) (i : ℕ),
      (∀ op2 ∈ l, ∀ (pos : ℕ) (tp : ℕ × String),
        op2.i1 ≤ pos → TE[pos]? = some tp → tp.1 ≠ i) →
      l.foldl (opcode_step TE WE) a i = a i := by
  intro l
  induction l with
  | nil => intro a i _; rfl
  | cons op2 rest ih =>
      intro a i h
      rw [List.foldl_cons]
      rw [ih _ i (fun o ho => h o (List.mem_cons_of_mem _ ho))]
      exact opcode_step_untouched TE WE op2 a i (h op2 (List.mem_cons_self _ _))

end AudioBook

/-- C5: in the alignment engine's token assignment, run by run over the edit
script (token keys strictly increasing as `enumerate` produces them, and later
runs covering token positions at or beyond this run's end, as
`SequenceMatcher.get_opcodes()` guarantees): every token of an **equal** run
receives exactly the correspondingly-positioned recognized word's start/end
(no interpolation); every token of a **non-equal** run with at least one
recognized word receives the uniform cut `k/n .. (k+1)/n` of the bounding span
(first word's start to last word's end, floored so end ≥ start), a
zero-duration span collapsing every token of the run to that instant
(`span_slot` reduces to the span boundaries when the duration is zero). -/
theorem C5_alignment_assignment :
    ∀ (TE : List (ℕ × String)) (WE : List (String × AudioBook.TimeSpan))
      (pre post : List AudioBook.Opcode) (op : AudioBook.Opcode),
      (TE.map Prod.fst).Pairwise (· < ·) →
      (∀ op2 ∈ post, op.i2 ≤ op2.i1) →
      ((op.tag = "equal" →
        ∀ (off : ℕ) (tp : ℕ × String) (wp : String × AudioBook.TimeSpan),
          off < op.i2 - op.i1 →
          TE[op.i1 + off]? = some tp → WE[op.j1 + off]? = some wp →
          AudioBook.process_opcodes TE WE (pre ++ op :: post) tp.1 =
            some ⟨wp.2.start, wp.2.end_⟩) ∧
      (op.tag ≠ "equal" →
        ∀ (k : ℕ) (tp : ℕ × String),
          ((TE.drop op.i1).take (op.i2 - op.i1))[k]? = some tp →
          ((WE.drop op.j1).take (op.j2 - op.j1)).map (fun e : String × AudioBook.TimeSpan => e.2) ≠ [] →
          AudioBook.process_opcodes TE WE (pre ++ op :: post) tp.1 =
            some (AudioBook.span_slot
              ((((WE.drop op.j1).take (op.j2 - op.j1)).map (fun e : String × AudioBook.TimeSpan => e.2)).headD
                ⟨0, 0⟩).start
              (max ((((WE.drop op.j1).take (op.j2 - op.j1)).map (fun e : String × AudioBook.TimeSpan => e.2)).headD
                  ⟨0, 0⟩).start
                ((((WE.drop op.j1).take (op.j2 - op.j1)).map (fun e : String × AudioBook.TimeSpan => e.2)).getLastD
                  ⟨0, 0⟩).end_)
              (max 0
                (max ((((WE.drop op.j1).take (op.j2 - op.j1)).map (fun e : String × AudioBook.TimeSpan => e.2)).headD
                    ⟨0, 0⟩).start
                  ((((WE.drop op.j1).take (op.j2 - op.j1)).map (fun e : String × AudioBook.TimeSpan => e.2)).getLastD
                    ⟨0, 0⟩).end_ -
                  ((((WE.drop op.j1).take (op.j2 - op.j1)).map (fun e : String × AudioBook.TimeSpan => e.2)).headD
                    ⟨0, 0⟩).start))
              ((TE.drop op.i1).take (op.i2 - op.i1)).length k))) := by
  intro TE WE pre post op hs hpost
  have hsplit : AudioBook.process_opcodes TE WE (pre ++ op :: post) =
      post.foldl (AudioBook.opcode_step TE WE)
        (AudioBook.opcode_step TE WE
          (pre.foldl (AudioBook.opcode_step TE WE) (fun _ => none)) op) := by
    unfold AudioBook.process_opcodes
    rw [List.foldl_append, List.foldl_cons]
  have hafter : ∀ (pos : ℕ) (tp : ℕ × String), pos < op.i2 → TE[pos]? = some tp →
      post.foldl (AudioBook.opcode_step TE WE)
          (AudioBook.opcode_step TE WE
            (pre.foldl (AudioBook.opcode_step TE WE) (fun _ => none)) op) tp.1 =
        AudioBook.opcode_step TE WE
          (pre.foldl (AudioBook.opcode_step TE WE) (fun _ => none)) op tp.1 := by
    intro pos tp hpos hTE
    apply AudioBook.foldl_opcode_untouched
    intro op2 hop2 pos2 tp2 hle hTE2
    have h1 : pos < pos2 := by
      have := hpost op2 hop2
      omega
    have := AudioBook.sorted_keys_lt hs h1 hTE hTE2
    omega
  constructor
  · intro htag off tp wp hoff h1 h2
    rw [hsplit, hafter (op.i1 + off) tp (by omega) h1]
    unfold AudioBook.opcode_step
    rw [if_pos htag]
    exact AudioBook.apply_equal_getElem TE WE op.i1 op.j1 hs (op.i2 - op.i1)
      _ off tp wp hoff h1 h2
  · intro htag k tp hk hwne
    rcases AudioBook.slice_getElem hk with ⟨hklt, hTE⟩
    rw [hsplit, hafter (op.i1 + k) tp (by omega) hTE]
    unfold AudioBook.opcode_step
    rw [if_neg htag]
    cases htsl : (TE.drop op.i1).take (op.i2 - op.i1) with
    | nil => rw [htsl] at hk; simp at hk
    | cons t0 tr =>
        cases hwsl : ((WE.drop op.j1).take (op.j2 - op.j1)).map (fun e => e.2) with
        | nil => exact absurd hwsl hwne
        | cons w0 wr =>
            rw [htsl] at hk
            have hsorted_slice : ((t0 :: tr).map Prod.fst).Pairwise (· < ·) := by
              rw [← htsl]
              have hmap : ((TE.drop op.i1).take (op.i2 - op.i1)).map Prod.fst =
                  ((TE.map Prod.fst).drop op.i1).take (op.i2 - op.i1) := by
                rw [List.map_take, List.map_drop]
              rw [hmap]
              exact List.Pairwise.sublist
                ((List.take_sublist _ _).trans (List.drop_sublist _ _)) hs
            rw [AudioBook.assign_span_getElem t0 tr w0 wr _ k tp hk hsorted_slice]
            simp only [List.headD_cons, List.getLastD_cons]

/-- C5 witness: the spec's two examples. Tokens `hello world` against
recognized `hello world` (one equal run) give token 1 exactly `[0.5, 1.0]`;
tokens `foo bar baz` against the single recognized word `xyz` spanning
`[2.0, 5.0]` (one replace run) give token 1 the middle third `[3.0, 4.0]`. -/
theorem C5_alignment_assignment_witness :
    AudioBook.process_opcodes
        [(0, "hello"), (1, "world")]
        [("hello", ⟨0, 1/2⟩), ("world", ⟨1/2, 1⟩)]
        [{ tag := "equal", i1 := 0, i2 := 2, j1 := 0, j2 := 2 }] 1 =
      some ⟨1/2, 1⟩ ∧
    AudioBook.process_opcodes
        [(0, "foo"), (1, "bar"), (2, "baz")]
        [("xyz", ⟨2, 5⟩)]
        [{ tag := "replace", i1 := 0, i2 := 3, j1 := 0, j2 := 1 }] 1 =
      some ⟨3, 4⟩ := by
  constructor
  · have h := (C5_alignment_assignment
        [(0, "hello"), (1, "world")]
        [("hello", ⟨0, 1/2⟩), ("world", ⟨1/2, 1⟩)] [] []
        { tag := "equal", i1 := 0, i2 := 2, j1 := 0, j2 := 2 }
        (by decide) (fun op2 h2 => absurd h2 (List.not_mem_nil _))).1
      rfl 1 (1, "world") ("world", ⟨1/2, 1⟩) (by norm_num) rfl rfl
    simpa using h
  · have h := (C5_alignment_assignment
        [(0, "foo"), (1, "bar"), (2, "baz")]
        [("xyz", ⟨2, 5⟩)] [] []
        { tag := "replace", i1 := 0, i2 := 3, j1 := 0, j2 := 1 }
        (by decide) (fun op2 h2 => absurd h2 (List.not_mem_nil _))).2
      (by decide) 1 (1, "bar") rfl (by decide)
    simp only [List.nil_append] at h
    rw [h]
    norm_num [AudioBook.span_slot]

namespace AudioBook

/-- `f"{offset:04d}"` for the nonnegative chapter indices used by the code. -/
def pad4 (n : ℕ) : String :=
  let s := toString n
  if s.length < 4 then String.mk (List.replicate (4 - s.length) '0') ++ s else s

/-- `AudiobookGenerator.process_chapter` (audiobook_generator.py lines 55-93)
with the chapter body abstracted as its outcome: any exception raised while
processing the chapter is caught at the chapter boundary, logged, and reported
as `False`; a normal return reports `True`. -/
def process_chapter (outcome : Except String Unit) : Bool :=
  match outcome with
  | .ok _ => true
  | .error _ => false

/-- `success_map = {idx: success for idx, success in results}` followed by
`success_map.get(offset, False)` (lines 237, 248): dictionary build with later
entries overwriting earlier ones, then a defaulted lookup. -/
def success_lookup (results : List (ℕ × Bool)) (i : ℕ) : Bool :=
  (results.foldl (fun acc r => if r.1 = i then some r.2 else acc) none).getD false

/-- One row of `chapters_manifest` (audiobook_generator.py lines 242-250). -/
structure ManifestRow where
  index : ℕ
  title : String
  audio : String
  metadata : String
  status : String
deriving DecidableEq, Repr

/-- Pure core of `AudiobookGenerator._write_manifest` (lines 225-265): one row
per processed chapter, enumerated from `chapter_start` in order, with status
`"ready"` when the aggregated result map reports success and `"failed"`
otherwise. -/
def write_manifest (chapter_start : ℕ) (audio_extension : String)
    (chapters_to_process : List (String × String)) (results : List (ℕ × Bool)) :
    List ManifestRow :=
  (List.enumFrom chapter_start chapters_to_process).map (fun t =>
    { index := t.1, title := t.2.1,
      audio := pad4 t.1 ++ "_" ++ t.2.1 ++ "." ++ audio_extension,
      metadata := pad4 t.1 ++ "_" ++ t.2.1 ++ ".json",
      status := if success_lookup results t.1 then "ready" else "failed" })

/-- Range validation of `AudiobookGenerator.run` (lines 117-130), applied to
the already-filtered chapter count: returns the resolved `chapter_end` or the
`ValueError` message the code raises. -/
def validate_chapter_range (numChapters : ℕ) (chapter_start chapter_end : ℤ) :
    Except String ℤ :=
  if chapter_start < 1 ∨ chapter_start > (numChapters : ℤ) then
    .error s!"Chapter start index {chapter_start} is out of range. Check your input."
  else if chapter_end < -1 ∨ chapter_end > (numChapters : ℤ) then
    .error s!"Chapter end index {chapter_end} is out of range. Check your input."
  else
    let chapter_end2 := if chapter_end = -1 then (numChapters : ℤ) else chapter_end
    if chapter_start > chapter_end2 then
      .error s!"Chapter start index {chapter_start} is larger than chapter end index {chapter_end2}. Check your input."
    else .ok chapter_end2

/-- Pure core of `AudiobookGenerator.run` (lines 100-216) with the per-chapter
work abstracted as outcomes: filter out chapters with empty/whitespace-only
text, validate the chapter range, slice `chapters[chapter_start-1 :
chapter_end]`, enumerate the tasks from `chapter_start`, run each through the
chapter exception boundary, and build the manifest rows. A `ValueError` during
validation aborts the run before any chapter job is dispatched, producing no
manifest entries. -/
def run_pipeline (chapters0 : List (String × String)) (chapter_start chapter_end : ℤ)
    (audio_extension : String) (outcome : ℕ → Except String Unit) :
    Except String (List ManifestRow) :=
  let chapters := chapters0.filter (fun c => decide (pyStrip c.2 ≠ ""))
  match validate_chapter_range chapters.length chapter_start chapter_end with
  | .error e => .error e
  | .ok chapter_end2 =>
      let s := chapter_start.toNat
      let chapters_to_process := (chapters.drop (s - 1)).take (chapter_end2.toNat - (s - 1))
      let results := (List.enumFrom s chapters_to_process).map
        (fun t => (t.1, process_chapter (outcome t.1)))
      .ok (write_manifest s audio_extension chapters_to_process results)

end AudioBook

/-- C6: after empty/whitespace-only chapters are filtered out (count `n`), an
out-of-range `chapter_start`, an out-of-range `chapter_end` (neither -1 nor
within bounds), or `chapter_start > chapter_end` makes the run fail with the
validation `ValueError` naming the invalid value, before any chapter job is
dispatched (the result is independent of the per-chapter outcomes), and no
manifest entries are created (the result carries only the error message). -/
theorem C6_range_validation
    (chapters0 : List (String × String)) (chapter_start chapter_end : ℤ)
    (ext : String) (outcome : ℕ → Except String Unit) :
    ((chapter_start < 1 ∨
        chapter_start >
          ((chapters0.filter (fun c => decide (AudioBook.pyStrip c.2 ≠ ""))).length : ℤ)) →
      AudioBook.run_pipeline chapters0 chapter_start chapter_end ext outcome =
        .error s!"Chapter start index {chapter_start} is out of range. Check your input.")
  ∧ (1 ≤ chapter_start →
      chapter_start ≤
        ((chapters0.filter (fun c => decide (AudioBook.pyStrip c.2 ≠ ""))).length : ℤ) →
      (chapter_end < -1 ∨
        chapter_end >
          ((chapters0.filter (fun c => decide (AudioBook.pyStrip c.2 ≠ ""))).length : ℤ)) →
      AudioBook.run_pipeline chapters0 chapter_start chapter_end ext outcome =
        .error s!"Chapter end index {chapter_end} is out of range. Check your input.")
  ∧ (1 ≤ chapter_start →
      chapter_start ≤
        ((chapters0.filter (fun c => decide (AudioBook.pyStrip c.2 ≠ ""))).length : ℤ) →
      -1 ≤ chapter_end →
      chapter_end ≤
        ((chapters0.filter (fun c => decide (AudioBook.pyStrip c.2 ≠ ""))).length : ℤ) →
      chapter_end ≠ -1 → chapter_start > chapter_end →
      AudioBook.run_pipeline chapters0 chapter_start chapter_end ext outcome =
        .error s!"Chapter start index {chapter_start} is larger than chapter end index {chapter_end}. Check your input.") := by
  refine ⟨?_, ?_, ?_⟩
  · intro h
    have hv : AudioBook.validate_chapter_range
        (chapters0.filter (fun c => decide (AudioBook.pyStrip c.2 ≠ ""))).length
        chapter_start chapter_end =
        .error s!"Chapter start index {chapter_start} is out of range. Check your input." := by
      unfold AudioBook.validate_chapter_range
      rw [if_pos h]
    unfold AudioBook.run_pipeline
    dsimp only
    rw [hv]
  · intro h1 h2 h3
    have hv : AudioBook.validate_chapter_range
        (chapters0.filter (fun c => decide (AudioBook.pyStrip c.2 ≠ ""))).length
        chapter_start chapter_end =
        .error s!"Chapter end index {chapter_end} is out of range. Check your input." := by
      unfold AudioBook.validate_chapter_range
      rw [if_neg (by omega), if_pos h3]
    unfold AudioBook.run_pipeline
    dsimp only
    rw [hv]
  · intro h1 h2 h3 h4 h5 h6
    have hv : AudioBook.validate_chapter_range
        (chapters0.filter (fun c => decide (AudioBook.pyStrip c.2 ≠ ""))).length
        chapter_start chapter_end =
        .error s!"Chapter start index {chapter_start} is larger than chapter end index {chapter_end}. Check your input." := by
      unfold AudioBook.validate_chapter_range
      rw [if_neg (by omega), if_neg (by omega)]
      simp only [if_neg h5]
      rw [if_pos h6]
    unfold AudioBook.run_pipeline
    dsimp only
    rw [hv]

/-- C6 witness: three nonempty chapters with `chapter_start = 5` fail
validation with the message naming 5, before any dispatch; and
`chapter_start = 2 > chapter_end = 1` fails naming both values. -/
theorem C6_range_validation_witness :
    AudioBook.run_pipeline [("a", "x"), ("b", "y"), ("c", "z")] 5 (-1) "wav"
        (fun _ => .ok ()) =
      .error "Chapter start index 5 is out of range. Check your input." ∧
    AudioBook.run_pipeline [("a", "x"), ("b", "y"), ("c", "z")] 2 1 "wav"
        (fun _ => .ok ()) =
      .error "Chapter start index 2 is larger than chapter end index 1. Check your input." := by
  constructor
  · have h := (C6_range_validation [("a", "x"), ("b", "y"), ("c", "z")] 5 (-1) "wav"
      (fun _ => .ok ())).1 (by decide)
    exact h
  · have h := (C6_range_validation [("a", "x"), ("b", "y"), ("c", "z")] 2 1 "wav"
      (fun _ => .ok ())).2.2 (by decide) (by decide) (by decide) (by decide)
      (by decide) (by decide)
    exact h

namespace AudioBook

theorem foldl_lookup_of_filter_nil {i : ℕ} :
    ∀ (results : List (ℕ × Bool)) (acc : Option Bool),
      results.filter (fun r => decide (r.1 = i)) = [] →
      results.foldl (fun acc r => if r.1 = i then some r.2 else acc) acc = acc := by
  intro results
  induction results with
  | nil => intro acc _; rfl
  | cons r rest ih =>
      intro acc h
      rw [List.filter_cons] at h
      by_cases hr : r.1 = i
      · rw [if_pos (by simpa using hr)] at h
        exact absurd h (List.cons_ne_nil _ _)
      · rw [if_neg (by simpa using hr)] at h
        rw [List.foldl_cons, if_neg hr]
        exact ih acc h

theorem foldl_lookup_of_filter_singleton {i : ℕ} {b : Bool} :
    ∀ (results : List (ℕ × Bool)) (acc : Option Bool),
      results.filter (fun r => decide (r.1 = i)) = [(i, b)] →
      results.foldl (fun acc r => if r.1 = i then some r.2 else acc) acc = some b := by
  intro results
  induction results with
  | nil => intro acc h; simp at h
  | cons r rest ih =>
      intro acc h
      rw [List.filter_cons] at h
      by_cases hr : r.1 = i
      · rw [if_pos (by simpa using hr)] at h
        injection h with h1 h2
        rw [List.foldl_cons, if_pos hr, h1]
        exact foldl_lookup_of_filter_nil rest _ h2
      · rw [if_neg (by simpa using hr)] at h
        rw [List.foldl_cons, if_neg hr]
        exact ih acc h

theorem success_lookup_of_filter_singleton {i : ℕ} {b : Bool}
    {results : List (ℕ × Bool)}
    (h : results.filter (fun r => decide (r.1 = i)) = [(i, b)]) :
    success_lookup results i = b := by
  unfold success_lookup
  rw [foldl_lookup_of_filter_singleton results none h]
  rfl

theorem results_filter_out :
    ∀ (chs : List (String × String)) (s : ℕ) (f : ℕ → Bool) (i : ℕ), i < s →
      ((List.enumFrom s chs).map (fun t => (t.1, f t.1))).filter
        (fun r => decide (r.1 = i)) = [] := by
  intro chs
  induction chs with
  | nil => intro s f i _; rfl
  | cons c rest ih =>
      intro s f i hi
      rw [List.enumFrom_cons, List.map_cons, List.filter_cons]
      rw [if_neg (by simp; omega)]
      exact ih (s + 1) f i (by omega)

theorem results_filter_singleton :
    ∀ (chs : List (String × String)) (s : ℕ) (f : ℕ → Bool) (k : ℕ),
      k < chs.length →
      ((List.enumFrom s chs).map (fun t => (t.1, f t.1))).filter
        (fun r => decide (r.1 = s + k)) = [(s + k, f (s + k))] := by
  intro chs
  induction chs with
  | nil => intro s f k hk; simp at hk
  | cons c rest ih =>
      intro s f k hk
      rw [List.enumFrom_cons, List.map_cons, List.filter_cons]
      cases k with
      | zero =>
          rw [if_pos (by simp)]
          rw [results_filter_out rest (s + 1) f (s + 0) (by omega)]
          rfl
      | succ k =>
          rw [if_neg (by simp)]
          have h := ih (s + 1) f k (by simpa using hk)
          rw [show s + 1 + k = s + (k + 1) from by omega] at h
          exact h

end AudioBook

/-- C3: if processing chapter `j` raises an exception, `process_chapter`
reports `success = false` for it while every sibling's result is its own
outcome, and the manifest built from the (arbitrarily ordered, as
`imap_unordered` delivers them) results has one row per attempted chapter in
chapter-index order, with status `"failed"` for the failing chapter and
`"ready"` for every chapter whose processing returned normally. -/
theorem C3_chapter_isolation
    (chapter_start : ℕ) (ext : String) (chapters : List (String × String))
    (outcome : ℕ → Except String Unit) (results : List (ℕ × Bool))
    (j : ℕ) (e : String)
    (hres : results.Perm ((List.enumFrom chapter_start chapters).map
      (fun t => (t.1, AudioBook.process_chapter (outcome t.1)))))
    (hj1 : chapter_start ≤ j) (hj2 : j < chapter_start + chapters.length)
    (he : outcome j = .error e) :
    AudioBook.process_chapter (outcome j) = false ∧
    (AudioBook.write_manifest chapter_start ext chapters results).length =
      chapters.length ∧
    (AudioBook.write_manifest chapter_start ext chapters results).map
        AudioBook.ManifestRow.index =
      List.range' chapter_start chapters.length ∧
    (∀ k, k < chapters.length →
      ((AudioBook.write_manifest chapter_start ext chapters results)[k]?).map
          AudioBook.ManifestRow.status =
        some (if AudioBook.process_chapter (outcome (chapter_start + k))
          then "ready" else "failed")) ∧
    ((AudioBook.write_manifest chapter_start ext chapters results)[j -
        chapter_start]?).map AudioBook.ManifestRow.status = some "failed" ∧
    (∀ k, k < chapters.length → outcome (chapter_start + k) = .ok () →
      ((AudioBook.write_manifest chapter_start ext chapters results)[k]?).map
          AudioBook.ManifestRow.status = some "ready") := by
  have hfail : AudioBook.process_chapter (outcome j) = false := by
    rw [he]; rfl
  have hsucc : ∀ k, k < chapters.length →
      AudioBook.success_lookup results (chapter_start + k) =
        AudioBook.process_chapter (outcome (chapter_start + k)) := by
    intro k hk
    have hfilter := AudioBook.results_filter_singleton chapters chapter_start
      (fun i => AudioBook.process_chapter (outcome i)) k hk
    have hperm := hres.filter (fun r => decide (r.1 = chapter_start + k))
    rw [hfilter] at hperm
    exact AudioBook.success_lookup_of_filter_singleton (List.perm_singleton.mp hperm)
  have hstatus : ∀ k, k < chapters.length →
      ((AudioBook.write_manifest chapter_start ext chapters results)[k]?).map
          AudioBook.ManifestRow.status =
        some (if AudioBook.process_chapter (outcome (chapter_start + k))
          then "ready" else "failed") := by
    intro k hk
    unfold AudioBook.write_manifest
    rw [List.getElem?_map, List.getElem?_enumFrom,
      List.getElem?_eq_getElem hk]
    simp only [Option.map_some, Option.map]
    rw [hsucc k hk]
  refine ⟨hfail, ?_, ?_, hstatus, ?_, ?_⟩
  · unfold AudioBook.write_manifest
    rw [List.length_map, List.enumFrom_length]
  · unfold AudioBook.write_manifest
    rw [List.map_map]
    have hcg : ((List.enumFrom chapter_start chapters).map
        (AudioBook.ManifestRow.index ∘ fun t =>
          ({ index := t.1, title := t.2.1,
             audio := AudioBook.pad4 t.1 ++ "_" ++ t.2.1 ++ "." ++ ext,
             metadata := AudioBook.pad4 t.1 ++ "_" ++ t.2.1 ++ ".json",
             status := if AudioBook.success_lookup results t.1 then "ready"
               else "failed" } : AudioBook.ManifestRow))) =
        (List.enumFrom chapter_start chapters).map Prod.fst :=
      List.map_congr_left (fun t _ => rfl)
    rw [hcg, List.enumFrom_map_fst]
  · have hk : j - chapter_start < chapters.length := by omega
    have hjeq : chapter_start + (j - chapter_start) = j := by omega
    have h := hstatus (j - chapter_start) hk
    rw [hjeq, hfail] at h
    simpa using h
  · intro k hk hok
    have h := hstatus k hk
    rw [hok] at h
    simpa using h

/-- C3 witness: three chapters with chapter 2's processing raising, results
delivered out of order (3, 1, 2): the manifest has 3 rows in index order
`[1, 2, 3]` with statuses ready/failed/ready. -/
theorem C3_chapter_isolation_witness :
    ((AudioBook.write_manifest 1 "wav" [("c1", "t1"), ("c2", "t2"), ("c3", "t3")]
        [(3, true), (1, true), (2, false)])[1]?).map AudioBook.ManifestRow.status =
      some "failed" ∧
    ((AudioBook.write_manifest 1 "wav" [("c1", "t1"), ("c2", "t2"), ("c3", "t3")]
        [(3, true), (1, true), (2, false)])[0]?).map AudioBook.ManifestRow.status =
      some "ready" ∧
    ((AudioBook.write_manifest 1 "wav" [("c1", "t1"), ("c2", "t2"), ("c3", "t3")]
        [(3, true), (1, true), (2, false)])[2]?).map AudioBook.ManifestRow.status =
      some "ready" ∧
    (AudioBook.write_manifest 1 "wav" [("c1", "t1"), ("c2", "t2"), ("c3", "t3")]
        [(3, true), (1, true), (2, false)]).map AudioBook.ManifestRow.index =
      [1, 2, 3] ∧
    (AudioBook.write_manifest 1 "wav" [("c1", "t1"), ("c2", "t2"), ("c3", "t3")]
        [(3, true), (1, true), (2, false)]).length = 3 := by
  have W := C3_chapter_isolation 1 "wav" [("c1", "t1"), ("c2", "t2"), ("c3", "t3")]
    (fun i => if i = 2 then .error "boom" else .ok ())
    [(3, true), (1, true), (2, false)] 2 "boom"
    (by decide) (by decide) (by decide) rfl
  refine ⟨?_, ?_, ?_, ?_, W.2.1⟩
  · exact W.2.2.2.2.1
  · exact W.2.2.2.2.2 0 (by decide) rfl
  · exact W.2.2.2.2.2 2 (by decide) rfl
  · rw [W.2.2.1]
    rfl
